import Mathlib

set_option maxRecDepth 10000

set_option maxHeartbeats 1000000

/-!
Shallow embedding of `gcc/hash-table.h` (the type-safe open-addressing hash
table used throughout the compiler): double hashing over prime capacities,
three-state slots (empty / deleted / occupied), tombstone-aware probing and
amortized resizing.  Machine `hashval_t` values are modelled as `Nat` (the
table sizes covered by the modelled prime table are far below 2^32, so no
unsigned wraparound can occur in the index arithmetic).  Unbounded `for (;;)`
probe loops are modelled with an explicit fuel argument; the public entry
points pass the table capacity as fuel, and termination within capacity many
probes is itself one of the verified properties.  A `NULL` pointer result is
modelled as `Option.none`; dereferencing `NULL` and calls to `abort ()` are
modelled as distinguished error results.
-/

/-- Slot states of `m_entries[i]`: `HTAB_EMPTY_ENTRY`, `HTAB_DELETED_ENTRY`
(the tombstone sentinel), or a pointer to an owned element. -/
inductive Slot (α : Type) where
  | empty : Slot α
  | deleted : Slot α
  | occupied : α → Slot α
deriving DecidableEq

/-- Modelled from the spec: the fixed ascending table of prime capacities.
`prime_tab` is only declared `extern` in hash-table.h; its definition (in
libiberty's hashtab.c) is not among the given sources.  We model the primes
themselves for table sizes up to 1021; the stored reciprocal constants
(`inv`, `inv_m2`, `shift`) only serve to evaluate the two modulus functions
below without a division instruction, so they need no separate model. -/
def prime_tab : List Nat := [7, 13, 31, 61, 127, 251, 509, 1021]

/-- The prime of a given capacity-class index. -/
def primeAt (i : Nat) : Nat := prime_tab.getD i 0

/-- Modelled from the spec: smallest index into `prime_tab` whose prime is
at least `n` (out-of-range requests would abort in the C code; they fall off
the end of the list here). -/
def hash_table_higher_prime_index (n : Nat) : Nat :=
  prime_tab.findIdx (fun p => n ≤ p)

/-- Modelled from the spec: the primary bucket index `mod1`, i.e. the hash
reduced modulo the prime of the given capacity class. -/
def hash_table_mod1 (h : Nat) (index : Nat) : Nat := h % primeAt index

/-- Modelled from the spec: the probe stride `mod2`, guaranteed in
[1, P-1]; computed as 1 + hash mod (P - 2) (the table stores the
multiplicative inverse of `prime - 2` as `inv_m2` for exactly this). -/
def hash_table_mod2 (h : Nat) (index : Nat) : Nat := 1 + h % (primeAt index - 2)

/-- The state of a `hash_table` object: the slot array together with the
counters.  `m_size` duplicates `m_entries.length` exactly as the C object
stores the size separately from the allocation. -/
structure hash_table (α : Type) where
  m_entries : List (Slot α)
  m_size : Nat
  m_n_elements : Nat
  m_n_deleted : Nat
  m_searches : Nat
  m_collisions : Nat
  m_size_prime_index : Nat
deriving DecidableEq

/-- `enum insert_option` from hashtab.h. -/
inductive insert_option where
  | NO_INSERT
  | INSERT
deriving DecidableEq

/-- One probe advance: `index += hash2; if (index >= size) index -= size`. -/
def step_index (index hash2 size : Nat) : Nat :=
  if size ≤ index + hash2 then index + hash2 - size else index + hash2

/-- The sequence of slot indices visited by a probe starting at `index`
with stride `hash2`. -/
def probe_seq (index hash2 size : Nat) : Nat → Nat
  | 0 => index
  | k + 1 => step_index (probe_seq index hash2 size k) hash2 size

/-- `size ()`. -/
def hash_table.size (t : hash_table α) : Nat := t.m_size

/-- `elements ()`: current number of elements, tombstones excluded. -/
def hash_table.elements (t : hash_table α) : Nat := t.m_n_elements - t.m_n_deleted

/-- `elements_with_deleted ()`. -/
def hash_table.elements_with_deleted (t : hash_table α) : Nat := t.m_n_elements

/-- `collisions ()`: the collision-ratio diagnostic.  The C type is
`double`; the exact rational value is modelled. -/
def hash_table.collision_rate (t : hash_table α) : Rat :=
  if t.m_searches = 0 then 0
  else (t.m_collisions : Rat) / (t.m_searches : Rat)

/-- The constructor `hash_table (size_t size)`: round the hint up through the
prime table, allocate that many empty slots, zero the counters. -/
def hash_table.create (α : Type) (size : Nat) : hash_table α :=
  let spi := hash_table_higher_prime_index size
  let sz := primeAt spi
  { m_entries := List.replicate sz Slot.empty
    m_size := sz
    m_n_elements := 0
    m_n_deleted := 0
    m_searches := 0
    m_collisions := 0
    m_size_prime_index := spi }

/-- The probe loop of `find_with_hash`.  Returns the number of collisions
recorded and the entry found (`none` models the `HTAB_EMPTY_ENTRY`/`NULL`
result for "not found"); the outer `none` models running out of fuel
(the C loop would still be running). -/
def find_loop (equal : α → κ → Bool) (entries : List (Slot α)) (key : κ)
    (size hash2 index : Nat) : Nat → Option (Nat × Option α)
  | 0 => none
  | fuel + 1 =>
    match entries.getD index Slot.empty with
    | Slot.empty => some (0, none)
    | Slot.deleted =>
      (find_loop equal entries key size hash2 (step_index index hash2 size) fuel).map
        (fun r => (r.1 + 1, r.2))
    | Slot.occupied x =>
      if equal x key then some (0, some x)
      else
        (find_loop equal entries key size hash2 (step_index index hash2 size) fuel).map
          (fun r => (r.1 + 1, r.2))

/-- `find_with_hash (comparable, hash)`: bump `m_searches`, probe from
`mod1` with stride `mod2`, recording one collision per advance; tombstones
are skipped.  Fuel is the table capacity. -/
def hash_table.find_with_hash (equal : α → κ → Bool) (t : hash_table α)
    (key : κ) (h : Nat) : Option (hash_table α × Option α) :=
  let index := hash_table_mod1 h t.m_size_prime_index
  let hash2 := hash_table_mod2 h t.m_size_prime_index
  match find_loop equal t.m_entries key t.m_size hash2 index t.m_size with
  | none => none
  | some (c, res) =>
    some ({ t with
            m_searches := t.m_searches + 1
            m_collisions := t.m_collisions + c }, res)

/-- Outcome of the probe loop of `find_slot_with_hash`: either an occupied
slot whose element is `equal` to the key, or the terminating empty slot
together with the first tombstone slot remembered along the path. -/
inductive slot_probe where
  | found_equal (i : Nat)
  | reached_empty (i : Nat) (first_deleted : Option Nat)
deriving DecidableEq

/-- The probe loop of `find_slot_with_hash`: like `find_loop` but remembering
the first `HTAB_DELETED_ENTRY` slot passed. -/
def find_slot_loop (equal : α → κ → Bool) (entries : List (Slot α)) (key : κ)
    (size hash2 index : Nat) (first_deleted : Option Nat) :
    Nat → Option (Nat × slot_probe)
  | 0 => none
  | fuel + 1 =>
    match entries.getD index Slot.empty with
    | Slot.empty => some (0, slot_probe.reached_empty index first_deleted)
    | Slot.deleted =>
      let fd := match first_deleted with
        | none => some index
        | some j => some j
      (find_slot_loop equal entries key size hash2 (step_index index hash2 size) fd fuel).map
        (fun r => (r.1 + 1, r.2))
    | Slot.occupied x =>
      if equal x key then some (0, slot_probe.found_equal index)
      else
        (find_slot_loop equal entries key size hash2 (step_index index hash2 size)
            first_deleted fuel).map
          (fun r => (r.1 + 1, r.2))

/-- Everything `find_slot_with_hash` does after the potential expand: bump
`m_searches`, probe, and resolve the `empty_entry` label.  With `NO_INSERT`
the result slot is `NULL` (`none`); with `INSERT` either the remembered
tombstone is reverted to empty (decrementing `m_n_deleted`) or the final
empty slot is claimed (incrementing `m_n_elements`).  The returned `Nat` is
the index of the returned slot pointer. -/
def hash_table.find_slot_probe (equal : α → κ → Bool) (t : hash_table α)
    (key : κ) (h : Nat) (insert : insert_option) :
    Option (hash_table α × Option Nat) :=
  let index := hash_table_mod1 h t.m_size_prime_index
  let hash2 := hash_table_mod2 h t.m_size_prime_index
  match find_slot_loop equal t.m_entries key t.m_size hash2 index none t.m_size with
  | none => none
  | some (c, slot_probe.found_equal i) =>
    some ({ t with
            m_searches := t.m_searches + 1
            m_collisions := t.m_collisions + c }, some i)
  | some (c, slot_probe.reached_empty i fd) =>
    let t2 : hash_table α :=
      { t with
        m_searches := t.m_searches + 1
        m_collisions := t.m_collisions + c }
    match insert with
    | insert_option.NO_INSERT => some (t2, none)
    | insert_option.INSERT =>
      match fd with
      | some j =>
        some ({ t2 with
                m_n_deleted := t2.m_n_deleted - 1
                m_entries := t2.m_entries.set j Slot.empty }, some j)
      | none =>
        some ({ t2 with m_n_elements := t2.m_n_elements + 1 }, some i)

/-- Result of `find_empty_slot_for_expand`'s probe: the empty slot found, or
the `abort ()` taken upon meeting a tombstone. -/
inductive expand_probe where
  | found (i : Nat)
  | fatal
deriving DecidableEq

/-- The probe loop of `find_empty_slot_for_expand`: stops at the first empty
slot; a `HTAB_DELETED_ENTRY` is an internal invariant violation and aborts;
occupied slots are stepped over without any equality test. -/
def find_empty_slot_loop (entries : List (Slot α)) (size hash2 index : Nat) :
    Nat → Option expand_probe
  | 0 => none
  | fuel + 1 =>
    match entries.getD index Slot.empty with
    | Slot.empty => some (expand_probe.found index)
    | Slot.deleted => some expand_probe.fatal
    | Slot.occupied _ =>
      find_empty_slot_loop entries size hash2 (step_index index hash2 size) fuel

/-- `find_empty_slot_for_expand (hash)` run against a table state. -/
def hash_table.find_empty_slot_for_expand (t : hash_table α) (h : Nat)
    (fuel : Nat) : Option expand_probe :=
  find_empty_slot_loop t.m_entries t.m_size
    (hash_table_mod2 h t.m_size_prime_index)
    (hash_table_mod1 h t.m_size_prime_index) fuel

/-- The reinsertion sweep of `expand`: walk the old slot array in order and
drop every occupied element into the first empty slot of the new array along
its probe sequence (computed at the new capacity class `nindex`/`nsize`).
`none` models the abort on a tombstone as well as a diverging probe. -/
def reinsert (hashFn : α → Nat) (nindex nsize : Nat) :
    List (Slot α) → List (Slot α) → Option (List (Slot α))
  | [], nentries => some nentries
  | s :: rest, nentries =>
    match s with
    | Slot.occupied x =>
      match find_empty_slot_loop nentries nsize
          (hash_table_mod2 (hashFn x) nindex)
          (hash_table_mod1 (hashFn x) nindex) nsize with
      | some (expand_probe.found q) =>
        reinsert hashFn nindex nsize rest (nentries.set q (Slot.occupied x))
      | _ => none
    | _ => reinsert hashFn nindex nsize rest nentries

/-- `expand ()`: pick the new capacity (grow to the prime above twice the
live count when more than half full, likewise shrink when under 1/8 live and
above the 32-slot floor, otherwise keep the capacity and merely purge the
tombstones), allocate a fresh all-empty array, purge the tombstones from the
counters, and reinsert every occupied element. -/
def hash_table.expand (hashFn : α → Nat) (t : hash_table α) :
    Option (hash_table α) :=
  let osize := t.size
  let elts := t.elements
  let nindex :=
    if osize < elts * 2 ∨ (elts * 8 < osize ∧ 32 < osize) then
      hash_table_higher_prime_index (elts * 2)
    else t.m_size_prime_index
  let nsize :=
    if osize < elts * 2 ∨ (elts * 8 < osize ∧ 32 < osize) then primeAt nindex
    else osize
  match reinsert hashFn nindex nsize t.m_entries (List.replicate nsize Slot.empty) with
  | none => none
  | some nentries =>
    some { m_entries := nentries
           m_size := nsize
           m_n_elements := t.m_n_elements - t.m_n_deleted
           m_n_deleted := 0
           m_searches := t.m_searches
           m_collisions := t.m_collisions
           m_size_prime_index := nindex }

/-- `find_slot_with_hash (comparable, hash, insert)`: with `INSERT`, first
expand when `m_size * 3 <= m_n_elements * 4`; then probe. -/
def hash_table.find_slot_with_hash (hashFn : α → Nat) (equal : α → κ → Bool)
    (t : hash_table α) (key : κ) (h : Nat) (insert : insert_option) :
    Option (hash_table α × Option Nat) :=
  match (if insert = insert_option.INSERT ∧ t.m_size * 3 ≤ t.m_n_elements * 4
         then t.expand hashFn else some t) with
  | none => none
  | some t1 => t1.find_slot_probe equal key h insert

/-- A caller-side insertion: obtain a slot with `INSERT` and, when the slot
came back empty (a fresh empty slot or a reverted tombstone), deposit the new
element there.  The Bool reports whether a new element was deposited (false
means an equal element was already present). -/
def hash_table.insert_with_hash (hashFn : α → Nat) (equal : α → κ → Bool)
    (t : hash_table α) (x : α) (key : κ) (h : Nat) :
    Option (hash_table α × Bool) :=
  match hash_table.find_slot_with_hash hashFn equal t key h insert_option.INSERT with
  | none => none
  | some (_, none) => none
  | some (t1, some i) =>
    match t1.m_entries.getD i Slot.empty with
    | Slot.empty =>
      some ({ t1 with m_entries := t1.m_entries.set i (Slot.occupied x) }, true)
    | _ => some (t1, false)

/-- Result of `remove_elt_with_hash`: the updated table, the undefined
behaviour of dereferencing the `NULL` slot pointer returned by
`find_slot_with_hash (…, NO_INSERT)` when no element matches, or a probe
that ran out of fuel. -/
inductive remove_result (α : Type) where
  | ok (t : hash_table α)
  | null_deref
  | diverged
deriving DecidableEq

/-- `remove_elt_with_hash (comparable, hash)`: look the slot up with
`NO_INSERT` and then test `*slot == HTAB_EMPTY_ENTRY`.  When the element is
missing the lookup returns `NULL`, so the test dereferences a null pointer
(`null_deref`); when an equal occupied slot is found, the element is removed
via the policy, the slot becomes a tombstone and `m_n_deleted` grows. -/
def hash_table.remove_elt_with_hash (hashFn : α → Nat) (equal : α → κ → Bool)
    (t : hash_table α) (key : κ) (h : Nat) : remove_result α :=
  match hash_table.find_slot_with_hash hashFn equal t key h insert_option.NO_INSERT with
  | none => remove_result.diverged
  | some (_, none) => remove_result.null_deref
  | some (t1, some i) =>
    match t1.m_entries.getD i Slot.empty with
    | Slot.empty => remove_result.ok t1
    | _ =>
      remove_result.ok
        { t1 with
          m_entries := t1.m_entries.set i Slot.deleted
          m_n_deleted := t1.m_n_deleted + 1 }

/-- Result of `clear_slot`: the updated table or the defensive `abort ()`. -/
inductive clear_result (α : Type) where
  | ok (t : hash_table α)
  | aborted
deriving DecidableEq

/-- `clear_slot (slot)`: abort on an out-of-range slot pointer or a slot that
is empty or already a tombstone; otherwise remove the element via the policy,
tombstone the slot and bump `m_n_deleted`. -/
def hash_table.clear_slot (t : hash_table α) (i : Nat) : clear_result α :=
  if t.size ≤ i then clear_result.aborted
  else
    match t.m_entries.getD i Slot.empty with
    | Slot.empty => clear_result.aborted
    | Slot.deleted => clear_result.aborted
    | Slot.occupied _ =>
      clear_result.ok
        { t with
          m_entries := t.m_entries.set i Slot.deleted
          m_n_deleted := t.m_n_deleted + 1 }

/-- The visit order of `traverse_noresize` with an always-continuing
callback: every live element in slot order, empties and tombstones skipped. -/
def traverse_visits : List (Slot α) → List α
  | [] => []
  | Slot.occupied x :: rest => x :: traverse_visits rest
  | _ :: rest => traverse_visits rest

/-- `traverse_noresize`, observed through the list of visited elements. -/
def hash_table.traverse_noresize (t : hash_table α) : List α :=
  traverse_visits t.m_entries

/-- `traverse`: first expand when fewer than 1/8 of the slots are live and
the capacity exceeds 32, then scan. -/
def hash_table.traverse (hashFn : α → Nat) (t : hash_table α) :
    Option (hash_table α × List α) :=
  if t.elements * 8 < t.m_size ∧ 32 < t.m_size then
    match t.expand hashFn with
    | none => none
    | some t1 => some (t1, t1.traverse_noresize)
  else some (t, t.traverse_noresize)

/-- The iterator: a slot cursor and its end boundary.  The C members are
pointers into the slot array; `none` models the `NULL` of the
default-constructed (exhausted) iterator. -/
structure hash_table.iterator (α : Type) where
  m_slot : Option Nat
  m_limit : Option Nat
deriving DecidableEq

/-- `end ()`: the default-constructed iterator. -/
def hash_table.end_iter (α : Type) : hash_table.iterator α :=
  { m_slot := none, m_limit := none }

/-- The loop of `iterator::slide ()`, with the number of remaining slots up
to the boundary as structural fuel: advance over empty and tombstone slots;
when the boundary is reached, both members become `NULL`. -/
def slide_loop (entries : List (Slot α)) (limit : Nat) :
    Nat → Nat → hash_table.iterator α
  | _, 0 => { m_slot := none, m_limit := none }
  | i, fuel + 1 =>
    if i < limit then
      match entries.getD i Slot.empty with
      | Slot.occupied _ => { m_slot := some i, m_limit := some limit }
      | _ => slide_loop entries limit (i + 1) fuel
    else { m_slot := none, m_limit := none }

/-- `iterator::slide ()` started from cursor `i` with boundary `limit`; the
loop runs at most `limit - i` times. -/
def slide_from (entries : List (Slot α)) (i limit : Nat) :
    hash_table.iterator α :=
  slide_loop entries limit i (limit - i)

/-- `begin ()`: start at the slot array base and slide. -/
def hash_table.begin (t : hash_table α) : hash_table.iterator α :=
  slide_from t.m_entries 0 t.m_size

/-- A concrete descriptor over `Nat` elements for the executable scenarios:
the hash of an element is the element itself. -/
def natHash (x : Nat) : Nat := x

/-- Concrete descriptor equality over `Nat`. -/
def natEq (x k : Nat) : Bool := x == k

/-- Insert each listed key (element = key = hash) in order. -/
def insert_all (t : hash_table Nat) : List Nat → Option (hash_table Nat)
  | [] => some t
  | k :: ks =>
    match hash_table.insert_with_hash natHash natEq t k k k with
    | some (t1, _) => insert_all t1 ks
    | none => none

/-- Remove each listed key in order; any crash or divergence propagates. -/
def remove_all (t : hash_table Nat) : List Nat → Option (hash_table Nat)
  | [] => some t
  | k :: ks =>
    match hash_table.remove_elt_with_hash natHash natEq t k k with
    | remove_result.ok t1 => remove_all t1 ks
    | _ => none

/-- Whether `find_with_hash` succeeds for a key under the `Nat` descriptor. -/
def findable (t : hash_table Nat) (k : Nat) : Bool :=
  match hash_table.find_with_hash natEq t k k with
  | some (_, some _) => true
  | _ => false

/-- A state with no searches recorded, for exercising `collision_rate`. -/
def c10_no_searches : hash_table Nat :=
  { m_entries := [], m_size := 0, m_n_elements := 0, m_n_deleted := 0,
    m_searches := 0, m_collisions := 5, m_size_prime_index := 0 }

/-- A state with 2 searches and 1 collision recorded. -/
def c10_some_searches : hash_table Nat :=
  { m_entries := [], m_size := 0, m_n_elements := 0, m_n_deleted := 0,
    m_searches := 2, m_collisions := 1, m_size_prime_index := 0 }

/-!
Counting infrastructure for the element-accounting claim (C7): the
structural invariant tying the two counters to the slot array.
-/

def Slot.isDeleted : Slot α → Bool
  | Slot.deleted => true
  | _ => false

def Slot.isEmptySlot : Slot α → Bool
  | Slot.empty => true
  | _ => false

def Slot.isOccupied : Slot α → Bool
  | Slot.occupied _ => true
  | _ => false

/-- Number of `HTAB_DELETED_ENTRY` slots. -/
def count_deleted (entries : List (Slot α)) : Nat :=
  entries.countP Slot.isDeleted

/-- Number of non-`HTAB_EMPTY_ENTRY` slots. -/
def count_nonempty (entries : List (Slot α)) : Nat :=
  entries.countP (fun s => ! s.isEmptySlot)

/-- Number of occupied slots (live elements). -/
def count_occupied (entries : List (Slot α)) : Nat :=
  entries.countP Slot.isOccupied

/-- The representation invariant of a reachable table: the capacity class is
a valid prime-table index, `m_size` is its prime and the allocation length,
`m_n_elements` counts the non-empty slots and `m_n_deleted` the tombstones. -/
def wf_table (t : hash_table α) : Prop :=
  t.m_size_prime_index < prime_tab.length ∧
    t.m_size = primeAt t.m_size_prime_index ∧
    t.m_entries.length = t.m_size ∧
    t.m_n_elements = count_nonempty t.m_entries ∧
    t.m_n_deleted = count_deleted t.m_entries

/-- The mutating operations of claim C7: a caller-level insertion
(`find_slot` with `INSERT` plus depositing the element), a removal by key
(`remove_elt_with_hash`), and a removal through an already-located slot
(`clear_slot`). -/
inductive table_op (α : Type) (κ : Type) where
  | ins (x : α) (key : κ) (h : Nat)
  | rem (key : κ) (h : Nat)
  | clr (i : Nat)

/-- Execute one operation; the two numbers report (successful inserts,
successful removes) contributed by this operation.  A crash (null
dereference, abort) or a diverging probe yields `none`. -/
def run_op (hashFn : α → Nat) (equal : α → κ → Bool) (t : hash_table α) :
    table_op α κ → Option (hash_table α × Nat × Nat)
  | table_op.ins x key h =>
    match t.insert_with_hash hashFn equal x key h with
    | none => none
    | some (t1, b) => some (t1, (if b then 1 else 0), 0)
  | table_op.rem key h =>
    match t.remove_elt_with_hash hashFn equal key h with
    | remove_result.ok t1 => some (t1, 0, 1)
    | _ => none
  | table_op.clr i =>
    match t.clear_slot i with
    | clear_result.ok t1 => some (t1, 0, 1)
    | clear_result.aborted => none

/-- Execute a sequence of operations, accumulating the successful insert and
remove counts. -/
def run_trace (hashFn : α → Nat) (equal : α → κ → Bool) :
    List (table_op α κ) → hash_table α → Option (hash_table α × Nat × Nat)
  | [], t => some (t, 0, 0)
  | op :: ops, t =>
    match run_op hashFn equal t op with
    | none => none
    | some (t1, di, dr) =>
      match run_trace hashFn equal ops t1 with
      | none => none
      | some (t2, ni, nr) => some (t2, di + ni, dr + nr)

/-- A small concrete trace for the accounting claim: two insertions of
distinct keys and one removal. -/
def c7_ops : List (table_op Nat Nat) :=
  [table_op.ins 1 1 1, table_op.ins 2 2 2, table_op.rem 1 1]

/-- The table produced by the concrete trace. -/
def c7_t : hash_table Nat :=
  ((run_trace natHash natEq c7_ops (hash_table.create Nat 4)).map
    Prod.fst).getD (hash_table.create Nat 0)

/-- A concrete table with one live element (3) and one tombstone, for
exercising the expand-preservation theorem. -/
def c4_t : hash_table Nat :=
  { m_entries := [Slot.empty, Slot.empty, Slot.empty, Slot.occupied 3,
      Slot.deleted, Slot.empty, Slot.empty]
    m_size := 7, m_n_elements := 2, m_n_deleted := 1, m_searches := 0,
    m_collisions := 0, m_size_prime_index := 0 }

/-- The table obtained by expanding `c4_t`. -/
def c4_te : hash_table Nat :=
  (c4_t.expand natHash).getD (hash_table.create Nat 0)

/-- The table state returned by the pre-expand lookup of key 3 in `c4_t`. -/
def c4_t1 : hash_table Nat :=
  ((hash_table.find_with_hash natEq c4_t 3 3).getD
    (hash_table.create Nat 0, none)).1

/-!
Basic unfolding lemmas for the fuelled probe loops.
-/

theorem find_loop_zero (equal : α → κ → Bool) (entries : List (Slot α))
    (key : κ) (size hash2 index : Nat) :
    find_loop equal entries key size hash2 index 0 = none := rfl

theorem find_loop_succ (equal : α → κ → Bool) (entries : List (Slot α))
    (key : κ) (size hash2 index fuel : Nat) :
    find_loop equal entries key size hash2 index (fuel + 1) =
      match entries.getD index Slot.empty with
      | Slot.empty => some (0, none)
      | Slot.deleted =>
        (find_loop equal entries key size hash2 (step_index index hash2 size) fuel).map
          (fun r => (r.1 + 1, r.2))
      | Slot.occupied x =>
        if equal x key then some (0, some x)
        else
          (find_loop equal entries key size hash2 (step_index index hash2 size) fuel).map
            (fun r => (r.1 + 1, r.2)) := rfl

theorem find_empty_slot_loop_succ (entries : List (Slot α))
    (size hash2 index fuel : Nat) :
    find_empty_slot_loop entries size hash2 index (fuel + 1) =
      match entries.getD index Slot.empty with
      | Slot.empty => some (expand_probe.found index)
      | Slot.deleted => some expand_probe.fatal
      | Slot.occupied _ =>
        find_empty_slot_loop entries size hash2 (step_index index hash2 size) fuel := rfl

/-- C1: the claim says removing a key with no matching element is a no-op.
The code instead dereferences a null pointer: `find_slot_with_hash` with
`NO_INSERT` returns `NULL` when it reaches an empty slot without finding an
equal element, and `remove_elt_with_hash` immediately evaluates
`*slot == HTAB_EMPTY_ENTRY` on that `NULL`.  Both on a freshly constructed
table and on a table holding unrelated elements 1 and 2, removing a missing
key hits the null dereference, contradicting the function's own comment
("this function does nothing" when there is no matching element). -/
theorem C1_remove_missing_null_deref :
    hash_table.remove_elt_with_hash natHash natEq (hash_table.create Nat 4) 0 0
        = remove_result.null_deref ∧
      (insert_all (hash_table.create Nat 4) [1, 2]).map
          (fun t => hash_table.remove_elt_with_hash natHash natEq t 5 5)
        = some remove_result.null_deref :=
  ⟨rfl, rfl⟩

/-- C2 counterexample: a table constructed with capacity hint 4 does get
capacity 7, but after 5 insertions the load is 5/7 ≤ 3/4, so the 6th
insertion does NOT trigger an expand: it completes at capacity 7 with 6
elements, refuting "the 6th insertion triggers an expand before completing
… and the capacity is a larger prime from the table". -/
theorem C2_counterexample :
    (insert_all (hash_table.create Nat 4) [0, 1, 2, 3, 4, 5]).map
        (fun t => (t.m_size, t.m_n_elements)) = some (7, 6) :=
  rfl

/-- C2 amended: capacity hint 4 gives capacity 7 (the first table prime
≥ 4); the 6th insertion of a distinct key completes without expanding — the
capacity stays 7 and all 6 elements are findable — and it is the 7th
insertion that triggers an expand before completing, after which all 7
elements are findable at the larger table prime 13 with no tombstones. -/
theorem C2_amended :
    (hash_table.create Nat 4).m_size = 7 ∧ 7 ∈ prime_tab ∧
      (insert_all (hash_table.create Nat 4) [0, 1, 2, 3, 4, 5]).map
          (fun t => (t.m_size, t.m_n_elements, (List.range 6).all (findable t)))
        = some (7, 6, true) ∧
      (insert_all (hash_table.create Nat 4) [0, 1, 2, 3, 4, 5, 6]).map
          (fun t => (t.m_size, t.m_n_elements, t.m_n_deleted,
            (List.range 7).all (findable t)))
        = some (13, 7, 0, true) ∧
      13 ∈ prime_tab :=
  ⟨rfl, by decide, rfl, rfl, by decide⟩

/-- C5 counterexample: inserting 10 distinct keys into a fresh table (hint
10, capacity 13) and removing 8 of them leaves 2 live elements and 8
tombstones; the resize-aware `traverse` does visit exactly the 2 live
elements, but the compaction gate `elements () * 8 < size && size > 32`
fails at capacity 13, so the tombstone count stays 8, not 0. -/
theorem C5_counterexample :
    ((insert_all (hash_table.create Nat 10) (List.range 10)).bind
        (fun t => (remove_all t (List.range 8)).bind
        (fun t => (hash_table.traverse natHash t).map
        (fun r => (r.2, r.1.m_n_deleted)))))
      = some ([8, 9], 8) ∧ (8 : Nat) ≠ 0 :=
  ⟨rfl, by decide⟩

/-- C5 amended: after inserting 10 distinct keys into a fresh table and
removing 8 (capacity 13, so 2 live elements and 8 tombstones), the
resize-aware `traverse` visits exactly the 2 live elements and leaves the
tombstone count at 8: no compaction happens, because `traverse` only
expands when the capacity also exceeds the floor of 32 slots, and 13 ≤ 32. -/
theorem C5_amended :
    ((insert_all (hash_table.create Nat 10) (List.range 10)).bind
        (fun t => (remove_all t (List.range 8)).bind
        (fun t => (hash_table.traverse natHash t).map
        (fun r => (r.1.m_size, r.2, r.1.m_n_deleted)))))
      = some (13, [8, 9], 8) ∧ ¬ (32 : Nat) < 13 :=
  ⟨rfl, by decide⟩

/-- C10: the collision-ratio diagnostic is total — with zero searches it
returns 0 instead of dividing by zero, and otherwise it returns the exact
quotient of collisions by searches (the C `double` is modelled by the exact
rational value). -/
theorem C10_collision_rate_total (t : hash_table α) :
    (t.m_searches = 0 → t.collision_rate = 0) ∧
      (t.m_searches ≠ 0 →
        t.collision_rate = (t.m_collisions : Rat) / (t.m_searches : Rat)) := by
  constructor <;> intro hs <;> simp [hash_table.collision_rate, hs]

theorem C10_collision_rate_total_witness :
    hash_table.collision_rate c10_no_searches = 0 ∧
      hash_table.collision_rate c10_some_searches
        = ((1 : Nat) : Rat) / ((2 : Nat) : Rat) :=
  ⟨(C10_collision_rate_total c10_no_searches).1 rfl,
   (C10_collision_rate_total c10_some_searches).2 (by decide)⟩

/-!
Iterator lemmas (claim C8).
-/

theorem slide_loop_end_of_no_live (entries : List (Slot α)) (limit : Nat) :
    ∀ fuel i,
      (∀ j, i ≤ j → j < limit →
        ∀ x, entries.getD j Slot.empty ≠ Slot.occupied x) →
      slide_loop entries limit i fuel = hash_table.end_iter α := by
  intro fuel
  induction fuel with
  | zero => intro i _; rfl
  | succ fuel ih =>
    intro i hdead
    show slide_loop entries limit i (fuel + 1) = _
    rw [slide_loop]
    by_cases hlt : i < limit
    · rw [if_pos hlt]
      rcases hs : entries.getD i Slot.empty with _ | _ | x
      · simp only [hs]
        exact ih (i + 1) (fun j hj hj' x => hdead j (by omega) hj' x)
      · simp only [hs]
        exact ih (i + 1) (fun j hj hj' x => hdead j (by omega) hj' x)
      · exact absurd hs (hdead i (Nat.le_refl i) hlt x)
    · rw [if_neg hlt]
      rfl

theorem slide_loop_some_occupied (entries : List (Slot α)) (limit : Nat) :
    ∀ fuel i j l,
      slide_loop entries limit i fuel = { m_slot := some j, m_limit := some l } →
      (∃ x, entries.getD j Slot.empty = Slot.occupied x) ∧
        i ≤ j ∧ j < limit ∧ l = limit := by
  intro fuel
  induction fuel with
  | zero => intro i j l hres; cases hres
  | succ fuel ih =>
    intro i j l hres
    rw [slide_loop] at hres
    by_cases hlt : i < limit
    · rw [if_pos hlt] at hres
      rcases hs : entries.getD i Slot.empty with _ | _ | x
      · rw [hs] at hres
        obtain ⟨hx, hij, hjl, hll⟩ := ih (i + 1) j l hres
        exact ⟨hx, by omega, hjl, hll⟩
      · rw [hs] at hres
        obtain ⟨hx, hij, hjl, hll⟩ := ih (i + 1) j l hres
        exact ⟨hx, by omega, hjl, hll⟩
      · rw [hs] at hres
        cases hres
        exact ⟨⟨x, hs⟩, Nat.le_refl i, hlt, rfl⟩
    · rw [if_neg hlt] at hres
      cases hres

theorem slide_loop_canonical (entries : List (Slot α)) (limit : Nat) :
    ∀ fuel i,
      slide_loop entries limit i fuel = hash_table.end_iter α ∨
        ∃ j, slide_loop entries limit i fuel =
          { m_slot := some j, m_limit := some limit } := by
  intro fuel
  induction fuel with
  | zero => intro i; left; rfl
  | succ fuel ih =>
    intro i
    rw [slide_loop]
    by_cases hlt : i < limit
    · rw [if_pos hlt]
      rcases hs : entries.getD i Slot.empty with _ | _ | x
      · simpa only [hs] using ih (i + 1)
      · simpa only [hs] using ih (i + 1)
      · right
        exact ⟨i, rfl⟩
    · left
      rw [if_neg hlt]
      rfl

/-- C8: sliding past the last live slot yields the canonical exhausted
iterator — both cursor and limit are `NULL` — which is structurally equal to
the default-constructed iterator returned by `end ()`, whatever the
capacity; a slide that stops does so exactly on an occupied slot within
bounds, so advancing never yields an `Empty` or `Tombstone` slot; and every
slide result has one of these two shapes, so the structural member-wise
`operator !=` comparison against `end ()` is exact. -/
theorem C8_iterator_slide (entries : List (Slot α)) (i limit : Nat) :
    ((∀ j, i ≤ j → j < limit →
        ∀ x, entries.getD j Slot.empty ≠ Slot.occupied x) →
      slide_from entries i limit = hash_table.end_iter α) ∧
      (∀ j l, slide_from entries i limit =
          { m_slot := some j, m_limit := some l } →
        (∃ x, entries.getD j Slot.empty = Slot.occupied x) ∧
          i ≤ j ∧ j < limit ∧ l = limit) ∧
      (slide_from entries i limit = hash_table.end_iter α ∨
        ∃ j, slide_from entries i limit =
          { m_slot := some j, m_limit := some limit }) :=
  ⟨fun hdead => slide_loop_end_of_no_live entries limit (limit - i) i hdead,
   fun j l => slide_loop_some_occupied entries limit (limit - i) i j l,
   slide_loop_canonical entries limit (limit - i) i⟩

theorem C8_iterator_slide_witness :
    slide_from ([Slot.deleted, Slot.empty] : List (Slot Nat)) 0 2
        = hash_table.end_iter Nat ∧
      ((∃ x, ([Slot.deleted, Slot.occupied 3] : List (Slot Nat)).getD 1 Slot.empty
          = Slot.occupied x) ∧ 0 ≤ 1 ∧ 1 < 2 ∧ 2 = 2) :=
  ⟨(C8_iterator_slide ([Slot.deleted, Slot.empty] : List (Slot Nat)) 0 2).1
      (by intro j _ hjlt x; interval_cases j <;> simp [List.getD]),
   (C8_iterator_slide ([Slot.deleted, Slot.occupied 3] : List (Slot Nat)) 0 2).2.1
      1 2 (by decide)⟩

/-- C3: with `INSERT`, `find_slot_with_hash` expands before probing exactly
when the element count including tombstones strictly exceeds 3/4 of the
capacity — the code's gate `m_size * 3 <= m_n_elements * 4` coincides with
the strict bound because the capacity is an odd prime, making `3 * m_size`
odd and hence never equal to `4 * m_n_elements`.  With `NO_INSERT` it never
expands: the call is exactly the probe phase, and the returned table agrees
with the input on the slot array, the capacity, both element counters and
the capacity class (only the diagnostic counters may move). -/
theorem C3_expand_trigger (hashFn : α → Nat) (equal : α → κ → Bool)
    (t : hash_table α) (key : κ) (h : Nat) (hodd : t.m_size % 2 = 1) :
    (hash_table.find_slot_with_hash hashFn equal t key h insert_option.INSERT =
      if 3 * t.m_size < 4 * t.m_n_elements then
        (t.expand hashFn).bind
          (fun t1 => t1.find_slot_probe equal key h insert_option.INSERT)
      else t.find_slot_probe equal key h insert_option.INSERT) ∧
      (hash_table.find_slot_with_hash hashFn equal t key h insert_option.NO_INSERT =
        t.find_slot_probe equal key h insert_option.NO_INSERT) ∧
      (∀ t' r,
        hash_table.find_slot_with_hash hashFn equal t key h insert_option.NO_INSERT
            = some (t', r) →
        t'.m_entries = t.m_entries ∧ t'.m_size = t.m_size ∧
          t'.m_n_elements = t.m_n_elements ∧ t'.m_n_deleted = t.m_n_deleted ∧
          t'.m_size_prime_index = t.m_size_prime_index) := by
  have hno : hash_table.find_slot_with_hash hashFn equal t key h insert_option.NO_INSERT
      = t.find_slot_probe equal key h insert_option.NO_INSERT := by
    unfold hash_table.find_slot_with_hash
    rw [if_neg (fun hcontra => by cases hcontra.1)]
  refine ⟨?_, hno, ?_⟩
  · unfold hash_table.find_slot_with_hash
    by_cases hc : t.m_size * 3 ≤ t.m_n_elements * 4
    · rw [if_pos ⟨rfl, hc⟩, if_pos (by omega)]
      cases hxp : t.expand hashFn with
      | none => rfl
      | some t1 => rfl
    · rw [if_neg (fun hcontra => hc hcontra.2), if_neg (by omega)]
  · intro t' r hres
    rw [hno] at hres
    unfold hash_table.find_slot_probe at hres
    dsimp only at hres
    split at hres
    · exact Option.noConfusion hres
    · cases hres
      exact ⟨rfl, rfl, rfl, rfl, rfl⟩
    · cases hres
      exact ⟨rfl, rfl, rfl, rfl, rfl⟩

theorem C3_expand_trigger_witness :
    hash_table.find_slot_with_hash natHash natEq (hash_table.create Nat 4) 0 0
        insert_option.NO_INSERT
      = (hash_table.create Nat 4).find_slot_probe natEq 0 0
          insert_option.NO_INSERT :=
  (C3_expand_trigger natHash natEq (hash_table.create Nat 4) 0 0 (by decide)).2.1

/-!
Probe-sequence lemmas shared by the expand-probe and termination claims.
-/

theorem probe_seq_zero (index hash2 size : Nat) :
    probe_seq index hash2 size 0 = index := rfl

theorem probe_seq_shift (index hash2 size : Nat) :
    ∀ k, probe_seq index hash2 size (k + 1) =
      probe_seq (step_index index hash2 size) hash2 size k := by
  intro k
  induction k with
  | zero => rfl
  | succ k ih =>
    show step_index (probe_seq index hash2 size (k + 1)) hash2 size = _
    rw [ih]
    rfl

theorem getD_mem_of_ne_empty :
    ∀ (entries : List (Slot α)) (i : Nat) (s : Slot α),
      entries.getD i Slot.empty = s → s ≠ Slot.empty → s ∈ entries := by
  intro entries
  induction entries with
  | nil =>
    intro i s hs hne
    simp [List.getD] at hs
    exact absurd hs.symm hne
  | cons a l ih =>
    intro i s hs hne
    cases i with
    | zero =>
      rw [List.getD_cons_zero] at hs
      exact hs ▸ List.mem_cons_self a l
    | succ i =>
      rw [List.getD_cons_succ] at hs
      exact List.mem_cons_of_mem a (ih i s hs hne)

theorem find_empty_slot_loop_found (entries : List (Slot α)) (size hash2 : Nat) :
    ∀ fuel index i,
      find_empty_slot_loop entries size hash2 index fuel
          = some (expand_probe.found i) →
      entries.getD i Slot.empty = Slot.empty := by
  intro fuel
  induction fuel with
  | zero => intro index i hres; cases hres
  | succ fuel ih =>
    intro index i hres
    rw [find_empty_slot_loop_succ] at hres
    rcases hs : entries.getD index Slot.empty with _ | _ | x
    · rw [hs] at hres
      cases hres
      exact hs
    · rw [hs] at hres
      cases hres
    · rw [hs] at hres
      exact ih (step_index index hash2 size) i hres

theorem find_empty_slot_loop_fatal_iff (entries : List (Slot α)) (size hash2 : Nat) :
    ∀ fuel index,
      (find_empty_slot_loop entries size hash2 index fuel = some expand_probe.fatal ↔
        ∃ k < fuel,
          entries.getD (probe_seq index hash2 size k) Slot.empty = Slot.deleted ∧
            ∀ j < k, ∃ x,
              entries.getD (probe_seq index hash2 size j) Slot.empty
                = Slot.occupied x) := by
  intro fuel
  induction fuel with
  | zero =>
    intro index
    constructor
    · intro hres; cases hres
    · rintro ⟨k, hk, -⟩; omega
  | succ fuel ih =>
    intro index
    rw [find_empty_slot_loop_succ]
    rcases hs : entries.getD index Slot.empty with _ | _ | x
    · constructor
      · intro hres; cases hres
      · rintro ⟨k, hk, hdel, hocc⟩
        cases k with
        | zero =>
          rw [probe_seq_zero, hs] at hdel
          cases hdel
        | succ k =>
          obtain ⟨x, hx⟩ := hocc 0 (Nat.succ_pos k)
          rw [probe_seq_zero, hs] at hx
          cases hx
    · constructor
      · intro _
        exact ⟨0, Nat.succ_pos fuel, by rw [probe_seq_zero]; exact hs,
          fun j hj => absurd hj (Nat.not_lt_zero j)⟩
      · intro _; rfl
    · rw [ih (step_index index hash2 size)]
      constructor
      · rintro ⟨k, hk, hdel, hocc⟩
        refine ⟨k + 1, by omega, ?_, ?_⟩
        · rw [probe_seq_shift]; exact hdel
        · intro j hj
          cases j with
          | zero => exact ⟨x, by rw [probe_seq_zero]; exact hs⟩
          | succ j =>
            obtain ⟨y, hy⟩ := hocc j (by omega)
            exact ⟨y, by rw [probe_seq_shift]; exact hy⟩
      · rintro ⟨k, hk, hdel, hocc⟩
        cases k with
        | zero =>
          rw [probe_seq_zero, hs] at hdel
          cases hdel
        | succ k =>
          refine ⟨k, by omega, ?_, ?_⟩
          · rw [← probe_seq_shift]; exact hdel
          · intro j hj
            obtain ⟨y, hy⟩ := hocc (j + 1) (by omega)
            exact ⟨y, by rw [← probe_seq_shift]; exact hy⟩

/-- C9: the post-resize reinsertion probe returns only empty slots or the
fatal abort: a `found` result always denotes an `Empty` slot; the abort
happens exactly when the probe path meets a `Tombstone` after stepping only
over occupied slots; and when the entries array contains no tombstone at all
— as right after a fresh allocation — the fatal outcome is unreachable. -/
theorem C9_find_empty_slot_for_expand (entries : List (Slot α))
    (size hash2 index fuel : Nat) :
    (∀ i, find_empty_slot_loop entries size hash2 index fuel
        = some (expand_probe.found i) →
      entries.getD i Slot.empty = Slot.empty) ∧
      (find_empty_slot_loop entries size hash2 index fuel
          = some expand_probe.fatal ↔
        ∃ k < fuel,
          entries.getD (probe_seq index hash2 size k) Slot.empty = Slot.deleted ∧
            ∀ j < k, ∃ x,
              entries.getD (probe_seq index hash2 size j) Slot.empty
                = Slot.occupied x) ∧
      ((∀ s ∈ entries, s ≠ Slot.deleted) →
        find_empty_slot_loop entries size hash2 index fuel
          ≠ some expand_probe.fatal) := by
  refine ⟨fun i => find_empty_slot_loop_found entries size hash2 fuel index i,
    find_empty_slot_loop_fatal_iff entries size hash2 fuel index, ?_⟩
  intro hclean hres
  obtain ⟨k, hk, hdel, -⟩ :=
    (find_empty_slot_loop_fatal_iff entries size hash2 fuel index).mp hres
  exact hclean Slot.deleted
    (getD_mem_of_ne_empty entries (probe_seq index hash2 size k) Slot.deleted hdel
      (by intro hcontra; cases hcontra)) rfl

theorem C9_find_empty_slot_for_expand_witness :
    ([Slot.occupied 5, Slot.empty] : List (Slot Nat)).getD 1 Slot.empty
        = Slot.empty ∧
      (∃ k < 2, ([Slot.occupied 5, Slot.deleted] : List (Slot Nat)).getD
            (probe_seq 0 1 2 k) Slot.empty = Slot.deleted ∧
          ∀ j < k, ∃ x,
            ([Slot.occupied 5, Slot.deleted] : List (Slot Nat)).getD
              (probe_seq 0 1 2 j) Slot.empty = Slot.occupied x) ∧
      find_empty_slot_loop ([Slot.occupied 5, Slot.empty] : List (Slot Nat))
          2 1 0 2 ≠ some expand_probe.fatal :=
  ⟨(C9_find_empty_slot_for_expand
      ([Slot.occupied 5, Slot.empty] : List (Slot Nat)) 2 1 0 2).1 1 (by decide),
   (C9_find_empty_slot_for_expand
      ([Slot.occupied 5, Slot.deleted] : List (Slot Nat)) 2 1 0 2).2.1.mp
      (by decide),
   (C9_find_empty_slot_for_expand
      ([Slot.occupied 5, Slot.empty] : List (Slot Nat)) 2 1 0 2).2.2 (by decide)⟩

/-!
Termination of the probe loop (claim C6).
-/

theorem prime_tab_all_prime : ∀ p ∈ prime_tab, Nat.Prime p := by
  intro p hp
  fin_cases hp <;> norm_num

theorem prime_tab_all_ge_seven : ∀ p ∈ prime_tab, 7 ≤ p := by
  decide

theorem step_index_lt {index hash2 size : Nat} (hi : index < size)
    (h2 : hash2 < size) : step_index index hash2 size < size := by
  unfold step_index
  split <;> omega

theorem probe_seq_lt {index hash2 size : Nat} (hi : index < size)
    (h2 : hash2 < size) : ∀ k, probe_seq index hash2 size k < size := by
  intro k
  induction k with
  | zero => exact hi
  | succ k ih => exact step_index_lt ih h2

theorem probe_seq_eq_mod {index hash2 size : Nat} (hi : index < size)
    (h2 : hash2 < size) :
    ∀ k, probe_seq index hash2 size k = (index + k * hash2) % size := by
  intro k
  induction k with
  | zero =>
    rw [probe_seq_zero, Nat.zero_mul, Nat.add_zero, Nat.mod_eq_of_lt hi]
  | succ k ih =>
    show step_index (probe_seq index hash2 size k) hash2 size = _
    rw [ih]
    have hsz : 0 < size := Nat.lt_of_le_of_lt (Nat.zero_le index) hi
    have ha : (index + k * hash2) % size < size := Nat.mod_lt _ hsz
    have hmod : (index + (k + 1) * hash2) % size
        = ((index + k * hash2) % size + hash2) % size := by
      conv_lhs => rw [show index + (k + 1) * hash2 = index + k * hash2 + hash2 by ring]
      rw [Nat.add_mod (index + k * hash2) hash2, Nat.mod_eq_of_lt h2]
    rw [hmod]
    unfold step_index
    split
    · rename_i hge
      have hlt2 : (index + k * hash2) % size + hash2 - size < size := by omega
      rw [Nat.mod_eq_sub_mod hge, Nat.mod_eq_of_lt hlt2]
    · rename_i hlt
      have hlt2 : (index + k * hash2) % size + hash2 < size := by omega
      rw [Nat.mod_eq_of_lt hlt2]

theorem exists_probe_hit {p : Nat} (hp : Nat.Prime p) {index hash2 e : Nat}
    (hi : index < p) (h2pos : 0 < hash2) (h2lt : hash2 < p) (he : e < p) :
    ∃ k < p, (index + k * hash2) % p = e := by
  haveI : Fact (Nat.Prime p) := ⟨hp⟩
  have hz : (hash2 : ZMod p) ≠ 0 := by
    rw [Ne, ZMod.natCast_zmod_eq_zero_iff_dvd]
    exact Nat.not_dvd_of_pos_of_lt h2pos h2lt
  refine ⟨(((e : ZMod p) - (index : ZMod p)) * (hash2 : ZMod p)⁻¹).val,
    ZMod.val_lt _, ?_⟩
  have hcast : ((index + (((e : ZMod p) - (index : ZMod p))
      * (hash2 : ZMod p)⁻¹).val * hash2 : Nat) : ZMod p) = (e : ZMod p) := by
    push_cast
    rw [ZMod.natCast_rightInverse _]
    field_simp
  have hv := congrArg ZMod.val hcast
  rwa [ZMod.val_natCast, ZMod.val_natCast, Nat.mod_eq_of_lt he] at hv

theorem find_loop_some_of_empty (equal : α → κ → Bool) (entries : List (Slot α))
    (key : κ) (size hash2 : Nat) :
    ∀ k fuel index, k < fuel →
      entries.getD (probe_seq index hash2 size k) Slot.empty = Slot.empty →
      (find_loop equal entries key size hash2 index fuel).isSome = true := by
  intro k
  induction k with
  | zero =>
    intro fuel index hk hempty
    obtain ⟨f, rfl⟩ : ∃ f, fuel = f + 1 := ⟨fuel - 1, by omega⟩
    rw [probe_seq_zero] at hempty
    rw [find_loop_succ, hempty]
    rfl
  | succ k ih =>
    intro fuel index hk hempty
    obtain ⟨f, rfl⟩ : ∃ f, fuel = f + 1 := ⟨fuel - 1, by omega⟩
    rw [find_loop_succ]
    rcases hs : entries.getD index Slot.empty with _ | _ | x
    · rfl
    · rw [probe_seq_shift] at hempty
      have := ih f (step_index index hash2 size) (by omega) hempty
      rcases hr : find_loop equal entries key size hash2
          (step_index index hash2 size) f with _ | r
      · rw [hr] at this; cases this
      · rfl
    · dsimp only
      by_cases heq : equal x key
      · rw [if_pos heq]; rfl
      · rw [if_neg heq]
        rw [probe_seq_shift] at hempty
        have := ih f (step_index index hash2 size) (by omega) hempty
        rcases hr : find_loop equal entries key size hash2
            (step_index index hash2 size) f with _ | r
        · rw [hr] at this; cases this
        · rfl

theorem exists_empty_index {entries : List (Slot α)}
    (hempty : Slot.empty ∈ entries) :
    ∃ e < entries.length, entries.getD e Slot.empty = Slot.empty := by
  obtain ⟨e, he, hget⟩ := List.mem_iff_getElem.mp hempty
  exact ⟨e, he, by rw [List.getD_eq_getElem?_getD, List.getElem?_eq_getElem he, hget]; rfl⟩

/-- C6: under the table invariants — the capacity is a prime from the prime
table, the capacity class agrees with it, the slot array has that length and
holds at least one `Empty` slot — the probe loop of `find_with_hash`
terminates within at most capacity many probes for every hash value: the
stride `mod2` lies in [1, capacity-1] and the capacity is prime, so they are
coprime and the probe sequence reaches an empty slot (or stops even earlier
at an equal occupied slot) before repeating any index. -/
theorem C6_find_with_hash_terminates (equal : α → κ → Bool) (t : hash_table α)
    (key : κ) (h : Nat)
    (hmem : t.m_size ∈ prime_tab)
    (hlen : t.m_entries.length = t.m_size)
    (hpi : primeAt t.m_size_prime_index = t.m_size)
    (hempty : Slot.empty ∈ t.m_entries) :
    (hash_table.find_with_hash equal t key h).isSome = true := by
  have hprime : Nat.Prime t.m_size := prime_tab_all_prime _ hmem
  have hseven : 7 ≤ t.m_size := prime_tab_all_ge_seven _ hmem
  have hindex : hash_table_mod1 h t.m_size_prime_index < t.m_size := by
    unfold hash_table_mod1
    rw [hpi]
    exact Nat.mod_lt _ (by omega)
  have hstride_pos : 0 < hash_table_mod2 h t.m_size_prime_index := by
    unfold hash_table_mod2
    omega
  have hstride_lt : hash_table_mod2 h t.m_size_prime_index < t.m_size := by
    unfold hash_table_mod2
    rw [hpi]
    have := Nat.mod_lt h (y := t.m_size - 2) (by omega)
    omega
  obtain ⟨e, he, hget⟩ := exists_empty_index hempty
  rw [hlen] at he
  obtain ⟨k, hk, hhit⟩ := exists_probe_hit hprime hindex hstride_pos hstride_lt he
  have hseq : probe_seq (hash_table_mod1 h t.m_size_prime_index)
      (hash_table_mod2 h t.m_size_prime_index) t.m_size k = e := by
    rw [probe_seq_eq_mod hindex hstride_lt]
    exact hhit
  have hterm := find_loop_some_of_empty equal t.m_entries key t.m_size
    (hash_table_mod2 h t.m_size_prime_index) k t.m_size
    (hash_table_mod1 h t.m_size_prime_index) hk (by rw [hseq]; exact hget)
  unfold hash_table.find_with_hash
  dsimp only
  rcases hr : find_loop equal t.m_entries key t.m_size
      (hash_table_mod2 h t.m_size_prime_index)
      (hash_table_mod1 h t.m_size_prime_index) t.m_size with _ | ⟨c, res⟩
  · rw [hr] at hterm; cases hterm
  · rfl

theorem C6_find_with_hash_terminates_witness :
    (hash_table.find_with_hash natEq
      { m_entries := [Slot.occupied 3, Slot.empty, Slot.deleted, Slot.empty,
          Slot.empty, Slot.empty, Slot.empty]
        m_size := 7, m_n_elements := 2, m_n_deleted := 1, m_searches := 0,
        m_collisions := 0, m_size_prime_index := 0 } 10 10).isSome = true :=
  C6_find_with_hash_terminates natEq _ 10 10 (by decide) (by decide) (by decide)
    (by decide)

theorem getD_set_self :
    ∀ (l : List (Slot α)) (i : Nat) (v : Slot α), i < l.length →
      (l.set i v).getD i Slot.empty = v := by
  intro l
  induction l with
  | nil => intro i v hi; cases hi
  | cons a l ih =>
    intro i v hi
    cases i with
    | zero => rfl
    | succ i =>
      rw [List.set_cons_succ, List.getD_cons_succ]
      exact ih i v (by simpa using hi)

theorem getD_set_ne :
    ∀ (l : List (Slot α)) (i j : Nat) (v : Slot α), i ≠ j →
      (l.set i v).getD j Slot.empty = l.getD j Slot.empty := by
  intro l
  induction l with
  | nil => intro i j v _; rfl
  | cons a l ih =>
    intro i j v hne
    cases i with
    | zero =>
      cases j with
      | zero => exact absurd rfl hne
      | succ j => rfl
    | succ i =>
      cases j with
      | zero => rfl
      | succ j =>
        rw [List.set_cons_succ, List.getD_cons_succ, List.getD_cons_succ]
        exact ih i j v (fun hcontra => hne (by omega))

theorem countP_set (p : Slot α → Bool) :
    ∀ (l : List (Slot α)) (i : Nat) (v : Slot α), i < l.length →
      (l.set i v).countP p + (if p (l.getD i Slot.empty) then 1 else 0)
        = l.countP p + (if p v then 1 else 0) := by
  intro l
  induction l with
  | nil => intro i v hi; cases hi
  | cons a l ih =>
    intro i v hi
    cases i with
    | zero =>
      rw [List.set_cons_zero, List.getD_cons_zero, List.countP_cons,
        List.countP_cons]
      omega
    | succ i =>
      rw [List.set_cons_succ, List.getD_cons_succ, List.countP_cons,
        List.countP_cons]
      have := ih i v (by simpa using hi)
      omega

theorem count_nonempty_eq_occupied_add_deleted :
    ∀ entries : List (Slot α),
      count_nonempty entries = count_occupied entries + count_deleted entries := by
  unfold count_nonempty count_occupied count_deleted
  intro entries
  induction entries with
  | nil => rfl
  | cons a l ih =>
    rw [List.countP_cons, List.countP_cons, List.countP_cons, ih]
    rcases a with _ | _ | x <;>
      simp [Slot.isDeleted, Slot.isEmptySlot, Slot.isOccupied] <;>
      omega

theorem count_deleted_le_nonempty (entries : List (Slot α)) :
    count_deleted entries ≤ count_nonempty entries :=
  List.countP_mono_left (by intro s _ hs; cases s <;> simp_all [Slot.isDeleted,
    Slot.isEmptySlot])

theorem getD_lt_length_of_ne_empty {entries : List (Slot α)} {i : Nat}
    (hne : entries.getD i Slot.empty ≠ Slot.empty) : i < entries.length := by
  by_contra hcontra
  exact hne (List.getD_eq_default entries Slot.empty (by omega))

theorem count_deleted_pos_of_getD {entries : List (Slot α)} {j : Nat}
    (hj : entries.getD j Slot.empty = Slot.deleted) :
    1 ≤ count_deleted entries := by
  apply List.countP_pos.mpr
  refine ⟨Slot.deleted, ?_, rfl⟩
  exact getD_mem_of_ne_empty entries j Slot.deleted hj (by intro hcontra; cases hcontra)

theorem count_deleted_replicate (n : Nat) :
    count_deleted (List.replicate n (Slot.empty : Slot α)) = 0 := by
  unfold count_deleted
  rw [List.countP_replicate]
  rfl

theorem count_nonempty_replicate (n : Nat) :
    count_nonempty (List.replicate n (Slot.empty : Slot α)) = 0 := by
  unfold count_nonempty
  rw [List.countP_replicate]
  rfl

theorem primeAt_ge_seven : ∀ i, i < prime_tab.length → 7 ≤ primeAt i := by
  decide

theorem higher_prime_index_lt {n : Nat} (hn : n ≤ 1021) :
    hash_table_higher_prime_index n < prime_tab.length := by
  unfold hash_table_higher_prime_index
  apply List.findIdx_lt_length_of_exists
  exact ⟨1021, by decide, by simpa using hn⟩

theorem wf_table_create (hint : Nat) (hhint : hint ≤ 1021) :
    wf_table (hash_table.create α hint) := by
  refine ⟨higher_prime_index_lt hhint, rfl, ?_, ?_, ?_⟩
  · exact List.length_replicate _ _
  · exact (count_nonempty_replicate _).symm
  · exact (count_deleted_replicate _).symm

theorem find_slot_loop_succ (equal : α → κ → Bool) (entries : List (Slot α))
    (key : κ) (size hash2 index : Nat) (fd : Option Nat) (fuel : Nat) :
    find_slot_loop equal entries key size hash2 index fd (fuel + 1) =
      match entries.getD index Slot.empty with
      | Slot.empty => some (0, slot_probe.reached_empty index fd)
      | Slot.deleted =>
        (find_slot_loop equal entries key size hash2 (step_index index hash2 size)
            (match fd with | none => some index | some j => some j) fuel).map
          (fun r => (r.1 + 1, r.2))
      | Slot.occupied x =>
        if equal x key then some (0, slot_probe.found_equal index)
        else
          (find_slot_loop equal entries key size hash2 (step_index index hash2 size)
              fd fuel).map
            (fun r => (r.1 + 1, r.2)) := rfl

theorem find_slot_loop_spec (equal : α → κ → Bool) (entries : List (Slot α))
    (key : κ) (size hash2 : Nat) (hh2 : hash2 < size) :
    ∀ fuel index fd c pr, index < size →
      (∀ j, fd = some j → entries.getD j Slot.empty = Slot.deleted) →
      find_slot_loop equal entries key size hash2 index fd fuel = some (c, pr) →
      (∀ i, pr = slot_probe.found_equal i →
        i < size ∧ ∃ x, entries.getD i Slot.empty = Slot.occupied x ∧
          equal x key = true) ∧
        (∀ i fd', pr = slot_probe.reached_empty i fd' →
          i < size ∧ entries.getD i Slot.empty = Slot.empty ∧
            ∀ j, fd' = some j → entries.getD j Slot.empty = Slot.deleted) := by
  intro fuel
  induction fuel with
  | zero => intro index fd c pr _ _ hres; cases hres
  | succ fuel ih =>
    intro index fd c pr hindex hfd hres
    rw [find_slot_loop_succ] at hres
    rcases hs : entries.getD index Slot.empty with _ | _ | x
    · rw [hs] at hres
      cases hres
      constructor
      · intro i hcontra; cases hcontra
      · intro i fd' heq
        cases heq
        exact ⟨hindex, hs, hfd⟩
    · rw [hs] at hres
      obtain ⟨⟨c', pr'⟩, hinner, hmap⟩ := Option.map_eq_some'.mp hres
      cases hmap
      rcases fd with _ | j0
      · exact ih (step_index index hash2 size) (some index) c' pr'
          (step_index_lt hindex hh2)
          (fun j hj => by cases hj; exact hs) hinner
      · exact ih (step_index index hash2 size) (some j0) c' pr'
          (step_index_lt hindex hh2)
          (fun j hj => by cases hj; exact hfd j0 rfl) hinner
    · rw [hs] at hres
      have hres' : (if equal x key = true then some (0, slot_probe.found_equal index)
          else (find_slot_loop equal entries key size hash2
              (step_index index hash2 size) fd fuel).map
            (fun r => (r.1 + 1, r.2))) = some (c, pr) := hres
      by_cases heq : equal x key
      · rw [if_pos heq] at hres'
        cases hres'
        constructor
        · intro i hi
          cases hi
          exact ⟨hindex, x, hs, heq⟩
        · intro i fd' hcontra; cases hcontra
      · rw [if_neg heq] at hres'
        obtain ⟨⟨c', pr'⟩, hinner, hmap⟩ := Option.map_eq_some'.mp hres'
        cases hmap
        exact ih (step_index index hash2 size) fd c' pr'
          (step_index_lt hindex hh2) hfd hinner

theorem find_empty_slot_loop_found_lt (entries : List (Slot α))
    (size hash2 : Nat) (hh2 : hash2 < size) :
    ∀ fuel index i, index < size →
      find_empty_slot_loop entries size hash2 index fuel
          = some (expand_probe.found i) →
      i < size := by
  intro fuel
  induction fuel with
  | zero => intro index i _ hres; cases hres
  | succ fuel ih =>
    intro index i hindex hres
    rw [find_empty_slot_loop_succ] at hres
    rcases hs : entries.getD index Slot.empty with _ | _ | x
    · rw [hs] at hres; cases hres; exact hindex
    · rw [hs] at hres; cases hres
    · rw [hs] at hres
      exact ih (step_index index hash2 size) i (step_index_lt hindex hh2) hres

theorem count_deleted_set_eq {ne : List (Slot α)} {q : Nat} (hq : q < ne.length)
    {vold : Slot α} (hold : ne.getD q Slot.empty = vold) (vnew : Slot α) :
    count_deleted (ne.set q vnew) + (if Slot.isDeleted vold then 1 else 0)
      = count_deleted ne + (if Slot.isDeleted vnew then 1 else 0) := by
  have h := countP_set Slot.isDeleted ne q vnew hq
  rw [hold] at h
  exact h

theorem count_nonempty_set_eq {ne : List (Slot α)} {q : Nat} (hq : q < ne.length)
    {vold : Slot α} (hold : ne.getD q Slot.empty = vold) (vnew : Slot α) :
    count_nonempty (ne.set q vnew) + (if ! vold.isEmptySlot then 1 else 0)
      = count_nonempty ne + (if ! vnew.isEmptySlot then 1 else 0) := by
  have h := countP_set (fun s => ! s.isEmptySlot) ne q vnew hq
  rw [hold] at h
  exact h

theorem count_occupied_cons_empty (rest : List (Slot α)) :
    count_occupied (Slot.empty :: rest) = count_occupied rest := by
  unfold count_occupied
  rw [List.countP_cons]
  rfl

theorem count_occupied_cons_deleted (rest : List (Slot α)) :
    count_occupied (Slot.deleted :: rest) = count_occupied rest := by
  unfold count_occupied
  rw [List.countP_cons]
  rfl

theorem count_occupied_cons_occupied (x : α) (rest : List (Slot α)) :
    count_occupied (Slot.occupied x :: rest) = count_occupied rest + 1 := by
  unfold count_occupied
  rw [List.countP_cons]
  rfl

theorem reinsert_spec (hashFn : α → Nat) (nindex nsize : Nat)
    (hsize : nsize = primeAt nindex) (hge : 7 ≤ nsize) :
    ∀ (old ne fin : List (Slot α)),
      ne.length = nsize →
      count_deleted ne = 0 →
      reinsert hashFn nindex nsize old ne = some fin →
      fin.length = nsize ∧ count_deleted fin = 0 ∧
        count_nonempty fin = count_nonempty ne + count_occupied old := by
  intro old
  induction old with
  | nil =>
    intro ne fin hlen hdel hre
    cases hre
    exact ⟨hlen, hdel, by simp [count_occupied, List.countP_nil]⟩
  | cons s rest ih =>
    intro ne fin hlen hdel hre
    rcases s with _ | _ | x
    · have hre' : reinsert hashFn nindex nsize rest ne = some fin := hre
      obtain ⟨h1, h2, h3⟩ := ih ne fin hlen hdel hre'
      exact ⟨h1, h2, by rw [h3, count_occupied_cons_empty]⟩
    · have hre' : reinsert hashFn nindex nsize rest ne = some fin := hre
      obtain ⟨h1, h2, h3⟩ := ih ne fin hlen hdel hre'
      exact ⟨h1, h2, by rw [h3, count_occupied_cons_deleted]⟩
    · have hmod1 : hash_table_mod1 (hashFn x) nindex < nsize := by
        unfold hash_table_mod1
        rw [hsize]
        exact Nat.mod_lt _ (by omega)
      have hmod2 : hash_table_mod2 (hashFn x) nindex < nsize := by
        unfold hash_table_mod2
        rw [hsize]
        have := Nat.mod_lt (hashFn x) (y := primeAt nindex - 2) (by omega)
        omega
      have hre2 : (match find_empty_slot_loop ne nsize
              (hash_table_mod2 (hashFn x) nindex)
              (hash_table_mod1 (hashFn x) nindex) nsize with
            | some (expand_probe.found q) =>
              reinsert hashFn nindex nsize rest (ne.set q (Slot.occupied x))
            | _ => none) = some fin := hre
      rcases hprobe : find_empty_slot_loop ne nsize
          (hash_table_mod2 (hashFn x) nindex)
          (hash_table_mod1 (hashFn x) nindex) nsize with _ | r
      · rw [hprobe] at hre2; cases hre2
      · rw [hprobe] at hre2
        rcases r with q | _
        · have hq : q < nsize :=
            find_empty_slot_loop_found_lt ne nsize _ hmod2 nsize _ q hmod1 hprobe
          have hqempty : ne.getD q Slot.empty = Slot.empty :=
            find_empty_slot_loop_found ne nsize _ nsize _ q hprobe
          have hqlen : q < ne.length := by omega
          have hlen' : (ne.set q (Slot.occupied x)).length = nsize := by
            rw [List.length_set]; exact hlen
          have hdel' : count_deleted (ne.set q (Slot.occupied x)) = 0 := by
            have h2 : count_deleted (ne.set q (Slot.occupied x)) + 0
                = count_deleted ne + 0 :=
              count_deleted_set_eq hqlen hqempty (Slot.occupied x)
            omega
          have hne' : count_nonempty (ne.set q (Slot.occupied x))
              = count_nonempty ne + 1 := by
            have h2 : count_nonempty (ne.set q (Slot.occupied x)) + 0
                = count_nonempty ne + 1 :=
              count_nonempty_set_eq hqlen hqempty (Slot.occupied x)
            omega
          obtain ⟨h1, h2, h3⟩ := ih (ne.set q (Slot.occupied x)) fin hlen' hdel' hre2
          refine ⟨h1, h2, ?_⟩
          rw [h3, hne', count_occupied_cons_occupied]
          omega
        · cases hre2

theorem find_slot_with_hash_no_insert (hashFn : α → Nat) (equal : α → κ → Bool)
    (t : hash_table α) (key : κ) (h : Nat) :
    hash_table.find_slot_with_hash hashFn equal t key h insert_option.NO_INSERT
      = t.find_slot_probe equal key h insert_option.NO_INSERT := by
  unfold hash_table.find_slot_with_hash
  rw [if_neg (fun hcontra => by cases hcontra.1)]

theorem expand_delta (hashFn : α → Nat) {t te : hash_table α}
    (hwf : wf_table t) (hsmall : (t.m_n_elements - t.m_n_deleted) * 2 ≤ 1021)
    (hexp : t.expand hashFn = some te) :
    wf_table te ∧ te.m_n_elements = t.m_n_elements - t.m_n_deleted ∧
      te.m_n_deleted = 0 := by
  obtain ⟨hspi, hsz, hlen, hne, hdel⟩ := hwf
  have hsplit := count_nonempty_eq_occupied_add_deleted t.m_entries
  have hle := count_deleted_le_nonempty t.m_entries
  unfold hash_table.expand at hexp
  unfold hash_table.size hash_table.elements at hexp
  dsimp only at hexp
  by_cases hc : t.m_size < (t.m_n_elements - t.m_n_deleted) * 2 ∨
      ((t.m_n_elements - t.m_n_deleted) * 8 < t.m_size ∧ 32 < t.m_size)
  · simp only [if_pos hc] at hexp
    have hnidx : hash_table_higher_prime_index
        ((t.m_n_elements - t.m_n_deleted) * 2) < prime_tab.length :=
      higher_prime_index_lt hsmall
    have hge7 : 7 ≤ primeAt (hash_table_higher_prime_index
        ((t.m_n_elements - t.m_n_deleted) * 2)) :=
      primeAt_ge_seven _ hnidx
    rcases hre : reinsert hashFn
        (hash_table_higher_prime_index ((t.m_n_elements - t.m_n_deleted) * 2))
        (primeAt (hash_table_higher_prime_index
          ((t.m_n_elements - t.m_n_deleted) * 2)))
        t.m_entries
        (List.replicate (primeAt (hash_table_higher_prime_index
          ((t.m_n_elements - t.m_n_deleted) * 2))) Slot.empty) with _ | fin
    · rw [hre] at hexp; cases hexp
    · rw [hre] at hexp
      cases hexp
      obtain ⟨hflen, hfdel, hfne⟩ := reinsert_spec hashFn _ _ rfl hge7
        t.m_entries _ fin (List.length_replicate _ _)
        (count_deleted_replicate _) hre
      rw [count_nonempty_replicate] at hfne
      refine ⟨⟨hnidx, rfl, hflen, ?_, hfdel.symm⟩, rfl, rfl⟩
      show t.m_n_elements - t.m_n_deleted = count_nonempty fin
      rw [hfne]
      omega
  · simp only [if_neg hc] at hexp
    have hge7' : 7 ≤ t.m_size := by rw [hsz]; exact primeAt_ge_seven _ hspi
    rcases hre : reinsert hashFn t.m_size_prime_index t.m_size t.m_entries
        (List.replicate t.m_size Slot.empty) with _ | fin
    · rw [hre] at hexp; cases hexp
    · rw [hre] at hexp
      cases hexp
      obtain ⟨hflen, hfdel, hfne⟩ := reinsert_spec hashFn _ _ hsz
        hge7' t.m_entries _ fin
        (List.length_replicate _ _) (count_deleted_replicate _) hre
      rw [count_nonempty_replicate] at hfne
      refine ⟨⟨hspi, hsz, hflen, ?_, hfdel.symm⟩, rfl, rfl⟩
      show t.m_n_elements - t.m_n_deleted = count_nonempty fin
      rw [hfne]
      omega

theorem insert_probe_deposit_delta (equal : α → κ → Bool) (x : α)
    {t0 t' : hash_table α} {key : κ} {h : Nat} {b : Bool}
    (hwf : wf_table t0)
    (hres : (match t0.find_slot_probe equal key h insert_option.INSERT with
      | none => none
      | some (_, none) => none
      | some (t1, some i) =>
        match t1.m_entries.getD i Slot.empty with
        | Slot.empty =>
          some ({ t1 with m_entries := t1.m_entries.set i (Slot.occupied x) }, true)
        | _ => some (t1, false)) = some (t', b)) :
    wf_table t' ∧ t'.m_n_elements - t'.m_n_deleted
      = (t0.m_n_elements - t0.m_n_deleted) + (if b then 1 else 0) := by
  obtain ⟨hspi, hsz, hlen, hne, hdel⟩ := hwf
  have hge7 : 7 ≤ t0.m_size := by rw [hsz]; exact primeAt_ge_seven _ hspi
  have hi0 : hash_table_mod1 h t0.m_size_prime_index < t0.m_size := by
    unfold hash_table_mod1; rw [hsz]; exact Nat.mod_lt _ (by omega)
  have hh2 : hash_table_mod2 h t0.m_size_prime_index < t0.m_size := by
    unfold hash_table_mod2; rw [hsz]
    have := Nat.mod_lt h (y := primeAt t0.m_size_prime_index - 2) (by omega)
    omega
  have hledel := count_deleted_le_nonempty t0.m_entries
  unfold hash_table.find_slot_probe at hres
  dsimp only at hres
  rcases hloop : find_slot_loop equal t0.m_entries key t0.m_size
      (hash_table_mod2 h t0.m_size_prime_index)
      (hash_table_mod1 h t0.m_size_prime_index) none t0.m_size with _ | ⟨c, pr⟩
  · rw [hloop] at hres; cases hres
  · rw [hloop] at hres
    have hspec := find_slot_loop_spec equal t0.m_entries key t0.m_size _ hh2
      t0.m_size _ none c pr hi0 (fun j hj => by cases hj) hloop
    cases pr with
    | found_equal i =>
      obtain ⟨hi, x0, hx0, heqx⟩ := hspec.1 i rfl
      have hres2 : (match t0.m_entries.getD i Slot.empty with
          | Slot.empty => some (({ t0 with
                m_searches := t0.m_searches + 1,
                m_collisions := t0.m_collisions + c,
                m_entries := t0.m_entries.set i (Slot.occupied x) } : hash_table α),
              true)
          | _ => some (({ t0 with
                m_searches := t0.m_searches + 1,
                m_collisions := t0.m_collisions + c } : hash_table α), false))
          = some (t', b) := hres
      rw [hx0] at hres2
      cases hres2
      exact ⟨⟨hspi, hsz, hlen, hne, hdel⟩, rfl⟩
    | reached_empty i fd =>
      obtain ⟨hi, hiempty, hfdprop⟩ := hspec.2 i fd rfl
      have hilen : i < t0.m_entries.length := by omega
      cases fd with
      | none =>
        have hres2 : (match t0.m_entries.getD i Slot.empty with
            | Slot.empty => some (({ t0 with
                  m_searches := t0.m_searches + 1,
                  m_collisions := t0.m_collisions + c,
                  m_n_elements := t0.m_n_elements + 1,
                  m_entries := t0.m_entries.set i (Slot.occupied x) } : hash_table α),
                true)
            | _ => some (({ t0 with
                  m_searches := t0.m_searches + 1,
                  m_collisions := t0.m_collisions + c,
                  m_n_elements := t0.m_n_elements + 1 } : hash_table α), false))
            = some (t', b) := hres
        rw [hiempty] at hres2
        cases hres2
        have hcne : count_nonempty (t0.m_entries.set i (Slot.occupied x)) + 0
            = count_nonempty t0.m_entries + 1 :=
          count_nonempty_set_eq hilen hiempty (Slot.occupied x)
        have hcd : count_deleted (t0.m_entries.set i (Slot.occupied x)) + 0
            = count_deleted t0.m_entries + 0 :=
          count_deleted_set_eq hilen hiempty (Slot.occupied x)
        refine ⟨⟨hspi, hsz, by rw [List.length_set]; exact hlen, ?_, ?_⟩, ?_⟩
        · show t0.m_n_elements + 1
            = count_nonempty (t0.m_entries.set i (Slot.occupied x))
          omega
        · show t0.m_n_deleted
            = count_deleted (t0.m_entries.set i (Slot.occupied x))
          omega
        · show (t0.m_n_elements + 1) - t0.m_n_deleted
            = t0.m_n_elements - t0.m_n_deleted + 1
          omega
      | some j =>
        have hjdel : t0.m_entries.getD j Slot.empty = Slot.deleted := hfdprop j rfl
        have hjlen : j < t0.m_entries.length :=
          getD_lt_length_of_ne_empty (by rw [hjdel]; intro hcontra; cases hcontra)
        have hdelpos : 1 ≤ count_deleted t0.m_entries :=
          count_deleted_pos_of_getD hjdel
        have hgetset : (t0.m_entries.set j Slot.empty).getD j Slot.empty
            = Slot.empty :=
          getD_set_self t0.m_entries j Slot.empty hjlen
        have hres2 : (match (t0.m_entries.set j Slot.empty).getD j Slot.empty with
            | Slot.empty => some (({ t0 with
                  m_searches := t0.m_searches + 1,
                  m_collisions := t0.m_collisions + c,
                  m_n_deleted := t0.m_n_deleted - 1,
                  m_entries := (t0.m_entries.set j Slot.empty).set j
                    (Slot.occupied x) } : hash_table α), true)
            | _ => some (({ t0 with
                  m_searches := t0.m_searches + 1,
                  m_collisions := t0.m_collisions + c,
                  m_n_deleted := t0.m_n_deleted - 1,
                  m_entries := t0.m_entries.set j Slot.empty } : hash_table α),
                false))
            = some (t', b) := hres
        rw [hgetset] at hres2
        cases hres2
        have hcd1 : count_deleted (t0.m_entries.set j Slot.empty) + 1
            = count_deleted t0.m_entries + 0 :=
          count_deleted_set_eq hjlen hjdel Slot.empty
        have hcne1 : count_nonempty (t0.m_entries.set j Slot.empty) + 1
            = count_nonempty t0.m_entries + 0 :=
          count_nonempty_set_eq hjlen hjdel Slot.empty
        have hjlen2 : j < (t0.m_entries.set j Slot.empty).length := by
          rw [List.length_set]; exact hjlen
        have hcd2 : count_deleted ((t0.m_entries.set j Slot.empty).set j
              (Slot.occupied x)) + 0
            = count_deleted (t0.m_entries.set j Slot.empty) + 0 :=
          count_deleted_set_eq hjlen2 hgetset (Slot.occupied x)
        have hcne2 : count_nonempty ((t0.m_entries.set j Slot.empty).set j
              (Slot.occupied x)) + 0
            = count_nonempty (t0.m_entries.set j Slot.empty) + 1 :=
          count_nonempty_set_eq hjlen2 hgetset (Slot.occupied x)
        refine ⟨⟨hspi, hsz, by rw [List.length_set, List.length_set]; exact hlen,
          ?_, ?_⟩, ?_⟩
        · show t0.m_n_elements
            = count_nonempty ((t0.m_entries.set j Slot.empty).set j
              (Slot.occupied x))
          omega
        · show t0.m_n_deleted - 1
            = count_deleted ((t0.m_entries.set j Slot.empty).set j
              (Slot.occupied x))
          omega
        · show t0.m_n_elements - (t0.m_n_deleted - 1)
            = t0.m_n_elements - t0.m_n_deleted + 1
          omega

theorem insert_with_hash_delta (hashFn : α → Nat) (equal : α → κ → Bool)
    {t t' : hash_table α} {x : α} {key : κ} {h : Nat} {b : Bool}
    (hwf : wf_table t) (hsmall : (t.m_n_elements - t.m_n_deleted) * 2 ≤ 1021)
    (hres : t.insert_with_hash hashFn equal x key h = some (t', b)) :
    wf_table t' ∧ t'.m_n_elements - t'.m_n_deleted
      = (t.m_n_elements - t.m_n_deleted) + (if b then 1 else 0) := by
  unfold hash_table.insert_with_hash hash_table.find_slot_with_hash at hres
  by_cases hc : t.m_size * 3 ≤ t.m_n_elements * 4
  · rw [if_pos ⟨rfl, hc⟩] at hres
    rcases hxp : t.expand hashFn with _ | te
    · rw [hxp] at hres; cases hres
    · rw [hxp] at hres
      obtain ⟨hwf_te, hni, hnd⟩ := expand_delta hashFn hwf hsmall hxp
      obtain ⟨hwf', hlive⟩ := insert_probe_deposit_delta equal x hwf_te hres
      refine ⟨hwf', ?_⟩
      rw [hlive, hni, hnd]
      omega
  · rw [if_neg (fun hk => hc hk.2)] at hres
    exact insert_probe_deposit_delta equal x hwf hres

theorem remove_delta (hashFn : α → Nat) (equal : α → κ → Bool)
    {t t' : hash_table α} {key : κ} {h : Nat}
    (hwf : wf_table t)
    (hres : t.remove_elt_with_hash hashFn equal key h = remove_result.ok t') :
    wf_table t' ∧ (t'.m_n_elements - t'.m_n_deleted) + 1
      = t.m_n_elements - t.m_n_deleted := by
  obtain ⟨hspi, hsz, hlen, hne, hdel⟩ := hwf
  have hge7 : 7 ≤ t.m_size := by rw [hsz]; exact primeAt_ge_seven _ hspi
  have hi0 : hash_table_mod1 h t.m_size_prime_index < t.m_size := by
    unfold hash_table_mod1; rw [hsz]; exact Nat.mod_lt _ (by omega)
  have hh2 : hash_table_mod2 h t.m_size_prime_index < t.m_size := by
    unfold hash_table_mod2; rw [hsz]
    have := Nat.mod_lt h (y := primeAt t.m_size_prime_index - 2) (by omega)
    omega
  unfold hash_table.remove_elt_with_hash at hres
  rw [find_slot_with_hash_no_insert] at hres
  unfold hash_table.find_slot_probe at hres
  dsimp only at hres
  rcases hloop : find_slot_loop equal t.m_entries key t.m_size
      (hash_table_mod2 h t.m_size_prime_index)
      (hash_table_mod1 h t.m_size_prime_index) none t.m_size with _ | ⟨c, pr⟩
  · rw [hloop] at hres; cases hres
  · rw [hloop] at hres
    have hspec := find_slot_loop_spec equal t.m_entries key t.m_size _ hh2
      t.m_size _ none c pr hi0 (fun j hj => by cases hj) hloop
    cases pr with
    | reached_empty i fd => cases hres
    | found_equal i =>
      obtain ⟨hi, x0, hx0, heqx⟩ := hspec.1 i rfl
      have hilen : i < t.m_entries.length := by omega
      have hres2 : (match t.m_entries.getD i Slot.empty with
          | Slot.empty => remove_result.ok ({ t with
              m_searches := t.m_searches + 1,
              m_collisions := t.m_collisions + c } : hash_table α)
          | _ => remove_result.ok ({ t with
              m_searches := t.m_searches + 1,
              m_collisions := t.m_collisions + c,
              m_entries := t.m_entries.set i Slot.deleted,
              m_n_deleted := t.m_n_deleted + 1 } : hash_table α))
          = remove_result.ok t' := hres
      rw [hx0] at hres2
      cases hres2
      have hcd : count_deleted (t.m_entries.set i Slot.deleted) + 0
          = count_deleted t.m_entries + 1 :=
        count_deleted_set_eq hilen hx0 Slot.deleted
      have hcne : count_nonempty (t.m_entries.set i Slot.deleted) + 1
          = count_nonempty t.m_entries + 1 :=
        count_nonempty_set_eq hilen hx0 Slot.deleted
      have hle2 := count_deleted_le_nonempty (t.m_entries.set i Slot.deleted)
      refine ⟨⟨hspi, hsz, by rw [List.length_set]; exact hlen, ?_, ?_⟩, ?_⟩
      · show t.m_n_elements = count_nonempty (t.m_entries.set i Slot.deleted)
        omega
      · show t.m_n_deleted + 1 = count_deleted (t.m_entries.set i Slot.deleted)
        omega
      · show (t.m_n_elements - (t.m_n_deleted + 1)) + 1
          = t.m_n_elements - t.m_n_deleted
        omega

theorem clear_slot_delta {t t' : hash_table α} {i : Nat} (hwf : wf_table t)
    (hres : t.clear_slot i = clear_result.ok t') :
    wf_table t' ∧ (t'.m_n_elements - t'.m_n_deleted) + 1
      = t.m_n_elements - t.m_n_deleted := by
  obtain ⟨hspi, hsz, hlen, hne, hdel⟩ := hwf
  unfold hash_table.clear_slot at hres
  by_cases hle : t.size ≤ i
  · rw [if_pos hle] at hres; cases hres
  · rw [if_neg hle] at hres
    have hilen : i < t.m_entries.length := by
      unfold hash_table.size at hle; omega
    rcases hs : t.m_entries.getD i Slot.empty with _ | _ | x
    · rw [hs] at hres; cases hres
    · rw [hs] at hres; cases hres
    · rw [hs] at hres
      cases hres
      have hcd : count_deleted (t.m_entries.set i Slot.deleted) + 0
          = count_deleted t.m_entries + 1 :=
        count_deleted_set_eq hilen hs Slot.deleted
      have hcne : count_nonempty (t.m_entries.set i Slot.deleted) + 1
          = count_nonempty t.m_entries + 1 :=
        count_nonempty_set_eq hilen hs Slot.deleted
      have hle2 := count_deleted_le_nonempty (t.m_entries.set i Slot.deleted)
      refine ⟨⟨hspi, hsz, by rw [List.length_set]; exact hlen, ?_, ?_⟩, ?_⟩
      · show t.m_n_elements = count_nonempty (t.m_entries.set i Slot.deleted)
        omega
      · show t.m_n_deleted + 1 = count_deleted (t.m_entries.set i Slot.deleted)
        omega
      · show (t.m_n_elements - (t.m_n_deleted + 1)) + 1
          = t.m_n_elements - t.m_n_deleted
        omega

theorem run_op_delta (hashFn : α → Nat) (equal : α → κ → Bool)
    {t t1 : hash_table α} {op : table_op α κ} {di dr : Nat}
    (hwf : wf_table t) (hsmall : (t.m_n_elements - t.m_n_deleted) * 2 ≤ 1021)
    (hres : run_op hashFn equal t op = some (t1, di, dr)) :
    wf_table t1 ∧ di ≤ 1 ∧
      (t1.m_n_elements - t1.m_n_deleted) + dr
        = (t.m_n_elements - t.m_n_deleted) + di := by
  cases op with
  | ins x key h =>
    unfold run_op at hres
    dsimp only at hres
    rcases hins : t.insert_with_hash hashFn equal x key h with _ | ⟨t2, b⟩
    · rw [hins] at hres; cases hres
    · rw [hins] at hres
      cases hres
      obtain ⟨hwf', hlive⟩ := insert_with_hash_delta hashFn equal hwf hsmall hins
      refine ⟨hwf', ?_, ?_⟩
      · cases b <;> simp
      · omega
  | rem key h =>
    unfold run_op at hres
    dsimp only at hres
    rcases hrem : t.remove_elt_with_hash hashFn equal key h with t2 | _ | _
    · rw [hrem] at hres
      cases hres
      obtain ⟨hwf', hlive⟩ := remove_delta hashFn equal hwf hrem
      exact ⟨hwf', by omega, by omega⟩
    · rw [hrem] at hres; cases hres
    · rw [hrem] at hres; cases hres
  | clr i =>
    unfold run_op at hres
    dsimp only at hres
    rcases hclr : t.clear_slot i with t2 | _
    · rw [hclr] at hres
      cases hres
      obtain ⟨hwf', hlive⟩ := clear_slot_delta hwf hclr
      exact ⟨hwf', by omega, by omega⟩
    · rw [hclr] at hres; cases hres

theorem run_trace_delta (hashFn : α → Nat) (equal : α → κ → Bool) :
    ∀ (ops : List (table_op α κ)) (t t2 : hash_table α) (ni nr : Nat),
      wf_table t →
      (t.m_n_elements - t.m_n_deleted) + ops.length ≤ 510 →
      run_trace hashFn equal ops t = some (t2, ni, nr) →
      wf_table t2 ∧
        (t2.m_n_elements - t2.m_n_deleted) + nr
          = (t.m_n_elements - t.m_n_deleted) + ni := by
  intro ops
  induction ops with
  | nil =>
    intro t t2 ni nr hwf _ hrun
    cases hrun
    exact ⟨hwf, rfl⟩
  | cons op ops ih =>
    intro t t2 ni nr hwf hbound hrun
    unfold run_trace at hrun
    rcases hop : run_op hashFn equal t op with _ | ⟨t1, di, dr⟩
    · rw [hop] at hrun; cases hrun
    · rw [hop] at hrun
      dsimp only at hrun
      have hlen : (op :: ops).length = ops.length + 1 := rfl
      obtain ⟨hwf1, hdi, hlive1⟩ :=
        run_op_delta hashFn equal hwf (by rw [hlen] at hbound; omega) hop
      rcases htr : run_trace hashFn equal ops t1 with _ | ⟨t3, ni', nr'⟩
      · rw [htr] at hrun; cases hrun
      · rw [htr] at hrun
        obtain ⟨hwf2, hlive2⟩ := ih t1 t3 ni' nr' hwf1
          (by rw [hlen] at hbound; omega) htr
        cases hrun
        exact ⟨hwf2, by omega⟩

/-- C7: starting from a fresh table, for every interleaving of caller-level
insertions (a `find_slot_with_hash` in `INSERT` mode whose returned slot is
empty — a fresh empty slot or a reverted tombstone — with the caller
depositing the new element) and completed removals (`remove_elt_with_hash`
finding its element, or `clear_slot` on an occupied slot), the live element
count `elements () = m_n_elements - m_n_deleted` equals the number of
successful inserts minus the number of successful removes; insertions that
find an equal element already present leave the count unchanged, and the
tombstone-reuse insert path decrements the tombstone counter instead of
incrementing the element counter.  The length bounds keep every capacity the
run can reach inside the modelled prefix of the prime table. -/
theorem C7_element_accounting (hashFn : α → Nat) (equal : α → κ → Bool)
    (hint : Nat) (ops : List (table_op α κ)) (t : hash_table α)
    (nIns nRem : Nat) (hhint : hint ≤ 1021) (hops : ops.length ≤ 510)
    (hrun : run_trace hashFn equal ops (hash_table.create α hint)
      = some (t, nIns, nRem)) :
    (t.m_n_elements - t.m_n_deleted) + nRem = nIns ∧
      t.m_n_deleted ≤ t.m_n_elements := by
  have hwf0 := wf_table_create (α := α) hint hhint
  have hbound : ((hash_table.create α hint).m_n_elements
      - (hash_table.create α hint).m_n_deleted) + ops.length ≤ 510 := by
    have h0 : (hash_table.create α hint).m_n_elements = 0 := rfl
    have h1 : (hash_table.create α hint).m_n_deleted = 0 := rfl
    omega
  obtain ⟨hwf, hlive⟩ :=
    run_trace_delta hashFn equal ops _ t nIns nRem hwf0 hbound hrun
  obtain ⟨-, -, -, hne, hdel⟩ := hwf
  have hle := count_deleted_le_nonempty t.m_entries
  have h0 : (hash_table.create α hint).m_n_elements = 0 := rfl
  have h1 : (hash_table.create α hint).m_n_deleted = 0 := rfl
  exact ⟨by omega, by omega⟩

theorem C7_element_accounting_witness :
    (c7_t.m_n_elements - c7_t.m_n_deleted) + 1 = 2 ∧
      c7_t.m_n_deleted ≤ c7_t.m_n_elements :=
  C7_element_accounting natHash natEq 4 c7_ops c7_t 2 1 (by decide) (by decide)
    rfl

/-!
Findability preservation across `expand` (claim C4).
-/

theorem find_loop_found (equal : α → κ → Bool) (entries : List (Slot α))
    (key : κ) (size hash2 : Nat) :
    ∀ fuel index c x,
      find_loop equal entries key size hash2 index fuel = some (c, some x) →
      equal x key = true ∧ Slot.occupied x ∈ entries := by
  intro fuel
  induction fuel with
  | zero => intro index c x hres; cases hres
  | succ fuel ih =>
    intro index c x hres
    rw [find_loop_succ] at hres
    rcases hs : entries.getD index Slot.empty with _ | _ | y
    · rw [hs] at hres; cases hres
    · rw [hs] at hres
      obtain ⟨⟨c', r'⟩, hinner, hmap⟩ := Option.map_eq_some'.mp hres
      cases hmap
      exact ih (step_index index hash2 size) c' x hinner
    · rw [hs] at hres
      have hres' : (if equal y key = true then some (0, some y)
          else (find_loop equal entries key size hash2
              (step_index index hash2 size) fuel).map
            (fun r => (r.1 + 1, r.2))) = some (c, some x) := hres
      by_cases heq : equal y key
      · rw [if_pos heq] at hres'
        cases hres'
        exact ⟨heq, getD_mem_of_ne_empty entries index _ hs
          (by intro hcontra; cases hcontra)⟩
      · rw [if_neg heq] at hres'
        obtain ⟨⟨c', r'⟩, hinner, hmap⟩ := Option.map_eq_some'.mp hres'
        cases hmap
        exact ih (step_index index hash2 size) c' x hinner

theorem find_empty_slot_loop_found_path (entries : List (Slot α))
    (size hash2 : Nat) :
    ∀ fuel index q,
      find_empty_slot_loop entries size hash2 index fuel
          = some (expand_probe.found q) →
      ∃ k < fuel, q = probe_seq index hash2 size k ∧
        ∀ j < k, ∃ z,
          entries.getD (probe_seq index hash2 size j) Slot.empty
            = Slot.occupied z := by
  intro fuel
  induction fuel with
  | zero => intro index q hres; cases hres
  | succ fuel ih =>
    intro index q hres
    rw [find_empty_slot_loop_succ] at hres
    rcases hs : entries.getD index Slot.empty with _ | _ | z
    · rw [hs] at hres
      cases hres
      exact ⟨0, Nat.succ_pos fuel, rfl, fun j hj => absurd hj (Nat.not_lt_zero j)⟩
    · rw [hs] at hres; cases hres
    · rw [hs] at hres
      obtain ⟨k, hk, hq, hocc⟩ := ih (step_index index hash2 size) q hres
      refine ⟨k + 1, by omega, by rw [probe_seq_shift]; exact hq, ?_⟩
      intro j hj
      cases j with
      | zero => exact ⟨z, by rw [probe_seq_zero]; exact hs⟩
      | succ j =>
        obtain ⟨w, hw⟩ := hocc j (by omega)
        exact ⟨w, by rw [probe_seq_shift]; exact hw⟩

theorem occupied_persists {ne : List (Slot α)} {p q : Nat} {z : α} (x : α)
    (hq : ne.getD q Slot.empty = Slot.empty)
    (hp : ne.getD p Slot.empty = Slot.occupied z) :
    (ne.set q (Slot.occupied x)).getD p Slot.empty = Slot.occupied z := by
  rcases eq_or_ne q p with rfl | hne
  · rw [hq] at hp; cases hp
  · rw [getD_set_ne ne q p (Slot.occupied x) hne]
    exact hp

theorem reinsert_preserves_path (hashFn : α → Nat) (equal : α → κ → Bool)
    (key : κ) (nindex nsize i0 h2 : Nat) :
    ∀ (old ne fin : List (Slot α)),
      reinsert hashFn nindex nsize old ne = some fin →
      ∀ k,
        (∃ y, ne.getD (probe_seq i0 h2 nsize k) Slot.empty = Slot.occupied y ∧
          equal y key = true) →
        (∀ j < k, ∃ z,
          ne.getD (probe_seq i0 h2 nsize j) Slot.empty = Slot.occupied z) →
        (∃ y, fin.getD (probe_seq i0 h2 nsize k) Slot.empty = Slot.occupied y ∧
          equal y key = true) ∧
          ∀ j < k, ∃ z,
            fin.getD (probe_seq i0 h2 nsize j) Slot.empty = Slot.occupied z := by
  intro old
  induction old with
  | nil =>
    intro ne fin hre k hk hocc
    cases hre
    exact ⟨hk, hocc⟩
  | cons s rest ih =>
    intro ne fin hre k hk hocc
    rcases s with _ | _ | x
    · exact ih ne fin hre k hk hocc
    · exact ih ne fin hre k hk hocc
    · have hre2 : (match find_empty_slot_loop ne nsize
            (hash_table_mod2 (hashFn x) nindex)
            (hash_table_mod1 (hashFn x) nindex) nsize with
          | some (expand_probe.found q) =>
            reinsert hashFn nindex nsize rest (ne.set q (Slot.occupied x))
          | _ => none) = some fin := hre
      rcases hprobe : find_empty_slot_loop ne nsize
          (hash_table_mod2 (hashFn x) nindex)
          (hash_table_mod1 (hashFn x) nindex) nsize with _ | r
      · rw [hprobe] at hre2; cases hre2
      · rw [hprobe] at hre2
        rcases r with q | _
        · have hqempty : ne.getD q Slot.empty = Slot.empty :=
            find_empty_slot_loop_found ne nsize _ nsize _ q hprobe
          refine ih (ne.set q (Slot.occupied x)) fin hre2 k ?_ ?_
          · obtain ⟨y, hy, hyk⟩ := hk
            exact ⟨y, occupied_persists x hqempty hy, hyk⟩
          · intro j hj
            obtain ⟨z, hz⟩ := hocc j hj
            exact ⟨z, occupied_persists x hqempty hz⟩
        · cases hre2

theorem reinsert_establishes (hashFn : α → Nat) (equal : α → κ → Bool)
    (key : κ) {x : α} (hx : equal x key = true) (nindex nsize : Nat)
    (hsize : nsize = primeAt nindex) (hge : 7 ≤ nsize) :
    ∀ (old ne fin : List (Slot α)),
      Slot.occupied x ∈ old →
      ne.length = nsize →
      reinsert hashFn nindex nsize old ne = some fin →
      ∃ k < nsize,
        (∃ y, fin.getD (probe_seq (hash_table_mod1 (hashFn x) nindex)
              (hash_table_mod2 (hashFn x) nindex) nsize k) Slot.empty
            = Slot.occupied y ∧ equal y key = true) ∧
          ∀ j < k, ∃ z,
            fin.getD (probe_seq (hash_table_mod1 (hashFn x) nindex)
                (hash_table_mod2 (hashFn x) nindex) nsize j) Slot.empty
              = Slot.occupied z := by
  have hmod1 : hash_table_mod1 (hashFn x) nindex < nsize := by
    unfold hash_table_mod1
    rw [hsize]
    exact Nat.mod_lt _ (by omega)
  have hmod2 : hash_table_mod2 (hashFn x) nindex < nsize := by
    unfold hash_table_mod2
    rw [hsize]
    have := Nat.mod_lt (hashFn x) (y := primeAt nindex - 2) (by omega)
    omega
  intro old
  induction old with
  | nil =>
    intro ne fin hmem _ _
    cases hmem
  | cons s rest ih =>
    intro ne fin hmem hlen hre
    rcases List.mem_cons.mp hmem with hhead | htail
    · cases hhead
      have hre2 : (match find_empty_slot_loop ne nsize
            (hash_table_mod2 (hashFn x) nindex)
            (hash_table_mod1 (hashFn x) nindex) nsize with
          | some (expand_probe.found q) =>
            reinsert hashFn nindex nsize rest (ne.set q (Slot.occupied x))
          | _ => none) = some fin := hre
      rcases hprobe : find_empty_slot_loop ne nsize
          (hash_table_mod2 (hashFn x) nindex)
          (hash_table_mod1 (hashFn x) nindex) nsize with _ | r
      · rw [hprobe] at hre2; cases hre2
      · rw [hprobe] at hre2
        rcases r with q | _
        · have hqempty : ne.getD q Slot.empty = Slot.empty :=
            find_empty_slot_loop_found ne nsize _ nsize _ q hprobe
          have hqlt : q < nsize :=
            find_empty_slot_loop_found_lt ne nsize _ hmod2 nsize _ q hmod1 hprobe
          obtain ⟨k, hk, hq, hocc⟩ :=
            find_empty_slot_loop_found_path ne nsize _ nsize _ q hprobe
          have hkx : (ne.set q (Slot.occupied x)).getD
              (probe_seq (hash_table_mod1 (hashFn x) nindex)
                (hash_table_mod2 (hashFn x) nindex) nsize k) Slot.empty
              = Slot.occupied x := by
            rw [← hq]
            exact getD_set_self ne q (Slot.occupied x) (by omega)
          have hoccs : ∀ j < k, ∃ z,
              (ne.set q (Slot.occupied x)).getD
                (probe_seq (hash_table_mod1 (hashFn x) nindex)
                  (hash_table_mod2 (hashFn x) nindex) nsize j) Slot.empty
                = Slot.occupied z := by
            intro j hj
            obtain ⟨z, hz⟩ := hocc j hj
            exact ⟨z, occupied_persists x hqempty hz⟩
          obtain ⟨hk', hocc'⟩ := reinsert_preserves_path hashFn equal key
            nindex nsize (hash_table_mod1 (hashFn x) nindex)
            (hash_table_mod2 (hashFn x) nindex) rest
            (ne.set q (Slot.occupied x)) fin hre2 k ⟨x, hkx, hx⟩ hoccs
          exact ⟨k, hk, hk', hocc'⟩
        · cases hre2
    · rcases s with _ | _ | x'
      · exact ih ne fin htail hlen hre
      · exact ih ne fin htail hlen hre
      · have hre2 : (match find_empty_slot_loop ne nsize
              (hash_table_mod2 (hashFn x') nindex)
              (hash_table_mod1 (hashFn x') nindex) nsize with
            | some (expand_probe.found q) =>
              reinsert hashFn nindex nsize rest (ne.set q (Slot.occupied x'))
            | _ => none) = some fin := hre
        rcases hprobe : find_empty_slot_loop ne nsize
            (hash_table_mod2 (hashFn x') nindex)
            (hash_table_mod1 (hashFn x') nindex) nsize with _ | r
        · rw [hprobe] at hre2; cases hre2
        · rw [hprobe] at hre2
          rcases r with q | _
          · exact ih (ne.set q (Slot.occupied x')) fin htail
              (by rw [List.length_set]; exact hlen) hre2
          · cases hre2

theorem find_loop_found_of_path (equal : α → κ → Bool)
    (entries : List (Slot α)) (key : κ) (size hash2 : Nat) :
    ∀ k fuel index, k < fuel →
      (∃ y, entries.getD (probe_seq index hash2 size k) Slot.empty
        = Slot.occupied y ∧ equal y key = true) →
      (∀ j < k, ∃ z, entries.getD (probe_seq index hash2 size j) Slot.empty
        = Slot.occupied z) →
      ∃ c y, find_loop equal entries key size hash2 index fuel
          = some (c, some y) ∧ equal y key = true := by
  intro k
  induction k with
  | zero =>
    intro fuel index hk hy _
    obtain ⟨f, rfl⟩ : ∃ f, fuel = f + 1 := ⟨fuel - 1, by omega⟩
    obtain ⟨y, hy, hyk⟩ := hy
    rw [probe_seq_zero] at hy
    rw [find_loop_succ, hy]
    dsimp only
    rw [if_pos hyk]
    exact ⟨0, y, rfl, hyk⟩
  | succ k ih =>
    intro fuel index hk hy hocc
    obtain ⟨f, rfl⟩ : ∃ f, fuel = f + 1 := ⟨fuel - 1, by omega⟩
    obtain ⟨z, hz⟩ := hocc 0 (Nat.succ_pos k)
    rw [probe_seq_zero] at hz
    rw [find_loop_succ, hz]
    dsimp only
    by_cases heq : equal z key
    · rw [if_pos heq]
      exact ⟨0, z, rfl, heq⟩
    · rw [if_neg heq]
      obtain ⟨c, y, hfl, hyk⟩ := ih f (step_index index hash2 size) (by omega)
        (by obtain ⟨y, hy, hyk⟩ := hy
            exact ⟨y, by rw [← probe_seq_shift]; exact hy, hyk⟩)
        (by intro j hj
            obtain ⟨w, hw⟩ := hocc (j + 1) (by omega)
            exact ⟨w, by rw [← probe_seq_shift]; exact hw⟩)
      rw [hfl]
      exact ⟨c + 1, y, rfl, hyk⟩

theorem find_with_hash_eq_of_loop (equal : α → κ → Bool) (t : hash_table α)
    (key : κ) (h c : Nat) (res : Option α)
    (hfl : find_loop equal t.m_entries key t.m_size
      (hash_table_mod2 h t.m_size_prime_index)
      (hash_table_mod1 h t.m_size_prime_index) t.m_size = some (c, res)) :
    hash_table.find_with_hash equal t key h
      = some ({ t with m_searches := t.m_searches + 1,
                       m_collisions := t.m_collisions + c }, res) := by
  unfold hash_table.find_with_hash
  dsimp only
  rw [hfl]

theorem expand_find_core (hashFn : α → Nat) (equal : α → κ → Bool)
    (t : hash_table α) (nindex nsize : Nat) (fin : List (Slot α))
    (hsize : nsize = primeAt nindex) (hge : 7 ≤ nsize)
    (hre : reinsert hashFn nindex nsize t.m_entries
      (List.replicate nsize Slot.empty) = some fin) :
    ∀ (key : κ) (h : Nat),
      (∀ x, equal x key = true → hashFn x = h) →
      ∀ t1 x, hash_table.find_with_hash equal t key h = some (t1, some x) →
      ∃ c y, find_loop equal fin key nsize (hash_table_mod2 h nindex)
          (hash_table_mod1 h nindex) nsize = some (c, some y) ∧
        equal y key = true := by
  intro key h hhash t1 x hfind
  unfold hash_table.find_with_hash at hfind
  dsimp only at hfind
  rcases hfl : find_loop equal t.m_entries key t.m_size
      (hash_table_mod2 h t.m_size_prime_index)
      (hash_table_mod1 h t.m_size_prime_index) t.m_size with _ | ⟨c0, res⟩
  · rw [hfl] at hfind; cases hfind
  · rw [hfl] at hfind
    cases hfind
    obtain ⟨heqx, hmem⟩ := find_loop_found equal t.m_entries key t.m_size
      (hash_table_mod2 h t.m_size_prime_index) t.m_size
      (hash_table_mod1 h t.m_size_prime_index) c0 x hfl
    have hh : hashFn x = h := hhash x heqx
    obtain ⟨k, hk, hky, hkocc⟩ := reinsert_establishes hashFn equal key heqx
      nindex nsize hsize hge t.m_entries _ fin hmem
      (List.length_replicate _ _) hre
    rw [hh] at hky hkocc
    exact find_loop_found_of_path equal fin key nsize
      (hash_table_mod2 h nindex) k nsize (hash_table_mod1 h nindex)
      hk hky hkocc

/-- C4: immediately after any completed `expand`, the tombstone counter is
exactly zero and the element counter has been reduced by the number of
tombstones purged; and, under the hash/equality contract (the searched hash
is the hash of any element equal to the key), every key findable before the
expand is still findable afterwards: each reinserted element sits at the
first empty slot of its probe sequence in the new array, the slots earlier
on that path remain occupied, and the post-expand search walks the very same
sequence, so it stops at an equal element and never at an empty slot. -/
theorem C4_expand_preserves (hashFn : α → Nat) (equal : α → κ → Bool)
    (t te : hash_table α)
    (hspi : t.m_size_prime_index < prime_tab.length)
    (hsz : t.m_size = primeAt t.m_size_prime_index)
    (hsmall : (t.m_n_elements - t.m_n_deleted) * 2 ≤ 1021)
    (hexp : t.expand hashFn = some te) :
    te.m_n_deleted = 0 ∧
      te.m_n_elements = t.m_n_elements - t.m_n_deleted ∧
      ∀ (key : κ) (h : Nat),
        (∀ x, equal x key = true → hashFn x = h) →
        ∀ t1 x, hash_table.find_with_hash equal t key h = some (t1, some x) →
        ∃ t2 y, hash_table.find_with_hash equal te key h = some (t2, some y) ∧
          equal y key = true := by
  unfold hash_table.expand at hexp
  unfold hash_table.size hash_table.elements at hexp
  dsimp only at hexp
  by_cases hc : t.m_size < (t.m_n_elements - t.m_n_deleted) * 2 ∨
      ((t.m_n_elements - t.m_n_deleted) * 8 < t.m_size ∧ 32 < t.m_size)
  · simp only [if_pos hc] at hexp
    have hnidx : hash_table_higher_prime_index
        ((t.m_n_elements - t.m_n_deleted) * 2) < prime_tab.length :=
      higher_prime_index_lt hsmall
    have hge7 : 7 ≤ primeAt (hash_table_higher_prime_index
        ((t.m_n_elements - t.m_n_deleted) * 2)) := primeAt_ge_seven _ hnidx
    rcases hre : reinsert hashFn
        (hash_table_higher_prime_index ((t.m_n_elements - t.m_n_deleted) * 2))
        (primeAt (hash_table_higher_prime_index
          ((t.m_n_elements - t.m_n_deleted) * 2)))
        t.m_entries
        (List.replicate (primeAt (hash_table_higher_prime_index
          ((t.m_n_elements - t.m_n_deleted) * 2))) Slot.empty) with _ | fin
    · rw [hre] at hexp; cases hexp
    · rw [hre] at hexp
      cases hexp
      refine ⟨rfl, rfl, ?_⟩
      intro key h hhash t1 x hfind
      obtain ⟨c, y, hfl2, hy⟩ := expand_find_core hashFn equal t _ _ fin rfl
        hge7 hre key h hhash t1 x hfind
      exact ⟨_, y, find_with_hash_eq_of_loop equal _ key h c (some y) hfl2, hy⟩
  · simp only [if_neg hc] at hexp
    have hge7' : 7 ≤ t.m_size := by rw [hsz]; exact primeAt_ge_seven _ hspi
    rcases hre : reinsert hashFn t.m_size_prime_index t.m_size t.m_entries
        (List.replicate t.m_size Slot.empty) with _ | fin
    · rw [hre] at hexp; cases hexp
    · rw [hre] at hexp
      cases hexp
      refine ⟨rfl, rfl, ?_⟩
      intro key h hhash t1 x hfind
      obtain ⟨c, y, hfl2, hy⟩ := expand_find_core hashFn equal t _ _ fin hsz
        hge7' hre key h hhash t1 x hfind
      exact ⟨_, y, find_with_hash_eq_of_loop equal _ key h c (some y) hfl2, hy⟩

theorem C4_expand_preserves_witness :
    c4_te.m_n_deleted = 0 ∧
      c4_te.m_n_elements = c4_t.m_n_elements - c4_t.m_n_deleted ∧
      ∃ t2 y, hash_table.find_with_hash natEq c4_te 3 3 = some (t2, some y) ∧
        natEq y 3 = true :=
  have hmain := C4_expand_preserves natHash natEq c4_t c4_te (by decide)
    (by decide) (by decide) rfl
  ⟨hmain.1, hmain.2.1, hmain.2.2 3 3
    (fun x hx => by simpa [natEq, natHash] using hx) c4_t1 3 rfl⟩
